import Mathlib

/-!
Verification development for the `example_sim` discrete-event simulation demo.

The repository ships a demo driver (`src/main.rs`) written against the
`simulator` crate, whose kernel (the `Simulation` scheduler, the future event
list and the typed state store) is described by the design document.  The
kernel itself is not part of the repository sources, so its operations are
modelled here from the design document; the two demo entity bodies
(`entity_a`, `entity_b`) are embedded directly from `src/main.rs`.
-/

namespace Simulator

/-!
Entity handles (`Key` in the source) are opaque identifiers minted
sequentially by the registry; they are modelled as natural numbers.
Simulated time only appears as whole seconds in the demo
(`Duration::from_secs`), so instants and durations are also modelled as
natural numbers of seconds.
-/

/-- The effect vocabulary yielded by entities (`Action` in the source):
`Hold(duration)`, `Passivate`, `ActivateOne(handle)`. -/
inductive Action where
  | hold (d : Nat)
  | passivate
  | activateOne (target : Nat)
deriving DecidableEq, Repr

/-- Result of resuming a coroutine one step: it suspends with exactly one
effect, or it completes. -/
inductive StepOut where
  | suspended (a : Action)
  | completed
deriving DecidableEq, Repr

/-- Modelled from the spec: a future event list entry
`(timestamp, sequence, handle)`; `sequence` is the monotonically increasing
insertion counter used as the deterministic tie-break. -/
structure FelEntry where
  timestamp : Nat
  seq : Nat
  key : Nat
deriving DecidableEq, Repr

/-- The `(timestamp, sequence)` lexicographic order keying the FEL. -/
def FelEntry.lexLe (a b : FelEntry) : Prop :=
  a.timestamp < b.timestamp ∨ (a.timestamp = b.timestamp ∧ a.seq ≤ b.seq)

instance (a b : FelEntry) : Decidable (FelEntry.lexLe a b) :=
  inferInstanceAs (Decidable (a.timestamp < b.timestamp ∨
    (a.timestamp = b.timestamp ∧ a.seq ≤ b.seq)))

/-- Modelled from the spec: `pop_earliest` removes and returns the FEL entry
that is minimal under the `(timestamp, sequence)` order, or `none` if the
list is empty. -/
def popEarliest : List FelEntry → Option (FelEntry × List FelEntry)
  | [] => none
  | e :: es =>
    match popEarliest es with
    | none => some (e, es)
    | some (m, rest) =>
      if FelEntry.lexLe e m then some (e, es) else some (m, e :: rest)

/-- Number of FEL entries carrying a given handle. -/
def countKey (k : Nat) (l : List FelEntry) : Nat :=
  l.countP (fun e => decide (e.key = k))

/-!
## The typed state store

The source imports `State` and `StateKey<T>` from the `simulator` crate.  The
store is a heterogeneous container: `insert` of a `T`-value returns a fresh
`StateKey<T>`, `get`/`get_mut` return the value behind a key (or `None` for a
removed/foreign key), `remove` deletes the slot and returns its value.  The
crate is not in the repository, so the store is modelled from the design
document as a slot table over an arbitrary universe `Ty` of slot types with
interpretation `interp`: a slot is `(index, ⟨t, value⟩)` and a key is a
phantom-typed index, so retrieving through the wrong type yields `none`.
-/

/-- Modelled from the spec: `StateKey<T>`, an opaque typed handle to a store
slot; the phantom parameter `t` records the slot type. -/
structure StateKey {Ty : Type} (t : Ty) where
  idx : Nat
deriving DecidableEq

/-- Modelled from the spec: the `State` store, a slot table of type-tagged
values together with the counter used to mint fresh keys. -/
structure State (Ty : Type) (interp : Ty → Type) where
  nextIdx : Nat
  slots : List (Nat × Sigma interp)

/-- The empty store (`State::default()`); also the placeholder value a
`Cell::take` leaves behind. -/
def State.empty {Ty : Type} (interp : Ty → Type) : State Ty interp :=
  { nextIdx := 0, slots := [] }

/-- First slot stored at a given index. -/
def slotFind {Ty : Type} {interp : Ty → Type} (i : Nat) :
    List (Nat × Sigma interp) → Option (Sigma interp)
  | [] => none
  | p :: ps => if p.1 = i then some p.2 else slotFind i ps

/-- Delete the slots stored at a given index. -/
def slotRemove {Ty : Type} {interp : Ty → Type} (i : Nat) :
    List (Nat × Sigma interp) → List (Nat × Sigma interp)
  | [] => []
  | p :: ps => if p.1 = i then slotRemove i ps else p :: slotRemove i ps

/-- Overwrite the slots stored at a given index. -/
def slotSet {Ty : Type} {interp : Ty → Type} (i : Nat) (v : Sigma interp) :
    List (Nat × Sigma interp) → List (Nat × Sigma interp)
  | [] => []
  | p :: ps => if p.1 = i then (i, v) :: slotSet i v ps else p :: slotSet i v ps

/-- Modelled from the spec: `State::insert(value) -> StateKey<T>` adds a new
slot holding the value and returns a fresh key typed to the value. -/
def State.insert {Ty : Type} {interp : Ty → Type} (t : Ty) (v : interp t)
    (s : State Ty interp) : @StateKey Ty t × State Ty interp :=
  (⟨s.nextIdx⟩,
    { nextIdx := s.nextIdx + 1, slots := s.slots ++ [(s.nextIdx, ⟨t, v⟩)] })

/-- Modelled from the spec: `State::get(key)` returns the stored value, or
`none` if the slot was removed, never existed, or holds a different type. -/
def State.get {Ty : Type} [DecidableEq Ty] {interp : Ty → Type} {t : Ty}
    (k : @StateKey Ty t) (s : State Ty interp) : Option (interp t) :=
  match slotFind k.idx s.slots with
  | none => none
  | some q => if h : q.1 = t then some (h ▸ q.2) else none

/-- Modelled from the spec: the write half of `State::get_mut(key)`: replace
the value behind a key (used to model in-place mutation through `&mut T`). -/
def State.set {Ty : Type} {interp : Ty → Type} {t : Ty} (k : @StateKey Ty t)
    (v : interp t) (s : State Ty interp) : State Ty interp :=
  { s with slots := slotSet k.idx ⟨t, v⟩ s.slots }

/-- Modelled from the spec: `State::remove(key)` deletes the slot and returns
the stored value (or `none` if absent/already removed). -/
def State.remove {Ty : Type} [DecidableEq Ty] {interp : Ty → Type} {t : Ty}
    (k : @StateKey Ty t) (s : State Ty interp) :
    Option (interp t) × State Ty interp :=
  (State.get k s, { s with slots := slotRemove k.idx s.slots })

/-- Store well-formedness: every slot index was minted before `nextIdx`. -/
def StoreWF {Ty : Type} {interp : Ty → Type} (s : State Ty interp) : Prop :=
  ∀ p ∈ s.slots, p.1 < s.nextIdx

instance {Ty : Type} {interp : Ty → Type} (s : State Ty interp) :
    Decidable (StoreWF s) :=
  inferInstanceAs (Decidable (∀ p ∈ s.slots, p.1 < s.nextIdx))

/-!
## The simulation kernel

Modelled from the spec: the `Simulation` scheduler owns the simulated clock,
the future event list, the coroutine registry and the shared state store.
The registry stores, per handle, a resumable step function: one resume call
maps the coroutine's local resumption state and the (checked-out) shared
store to one yielded effect, the next resumption state and the
(checked-back-in) store, or to `none` when the body panics.  The store type
`St` and the local-state type `L` are opaque to the kernel.
-/

/-- Kernel failure modes: the misuse errors the design document requires to
fail loudly, never silently no-op. -/
inductive SimError where
  | unknownHandle (k : Nat)
  | completedHandle (k : Nat)
  | entityPanic (k : Nat)
deriving DecidableEq, Repr

/-- A registered coroutine: its step function, its current resumption state
and whether it is still live (not yet completed). -/
structure EntityC (St L : Type) where
  step : L → St → Option (StepOut × L × St)
  locState : L
  alive : Bool

/-- Modelled from the spec: the `Simulation` kernel state: simulated clock,
future event list, insertion counter, coroutine registry and shared store. -/
structure Simulation (St L : Type) where
  clock : Nat
  fel : List FelEntry
  nextSeq : Nat
  entities : List (EntityC St L)
  state : St

/-- `Simulation::default()`: clock zero, empty FEL, empty registry, with the
given initial shared store. -/
def Simulation.init {St L : Type} (st0 : St) : Simulation St L :=
  { clock := 0, fel := [], nextSeq := 0, entities := [], state := st0 }

/-- Modelled from the spec: `add_generator` registers a not-yet-started
coroutine and returns a fresh handle; it performs no scheduling. -/
def Simulation.add_generator {St L : Type} (ent : EntityC St L)
    (s : Simulation St L) : Nat × Simulation St L :=
  (s.entities.length, { s with entities := s.entities ++ [ent] })

/-- Modelled from the spec: `schedule_at` inserts
`(timestamp, next_sequence(), handle)` into the FEL. -/
def Simulation.schedule_at {St L : Type} (k : Nat) (t : Nat)
    (s : Simulation St L) : Simulation St L :=
  { s with fel := s.fel ++ [{ timestamp := t, seq := s.nextSeq, key := k }],
           nextSeq := s.nextSeq + 1 }

/-- Modelled from the spec: `schedule_now handle = schedule_at handle clock`. -/
def Simulation.schedule_now {St L : Type} (k : Nat) (s : Simulation St L) :
    Simulation St L :=
  s.schedule_at k s.clock

/-- Modelled from the spec: `resume(handle)` advances the coroutine bound to
the handle by one step.  A handle with no registered coroutine, or one whose
coroutine already completed, yields a distinguishable error; a panic inside
the body aborts as well. -/
def Simulation.resume {St L : Type} (k : Nat) (s : Simulation St L) :
    Except SimError (StepOut × Simulation St L) :=
  match s.entities[k]? with
  | none => .error (.unknownHandle k)
  | some ent =>
    if ent.alive then
      match ent.step ent.locState s.state with
      | none => .error (.entityPanic k)
      | some (out, l2, st2) =>
        .ok (out, { s with
          entities := s.entities.set k
            { ent with
              locState := l2,
              alive := match out with | .completed => false | _ => true },
          state := st2 })
    else .error (.completedHandle k)

/-- Modelled from the spec, state **Applying**: interpret the yielded effect.
`Hold d` re-schedules the current entity at `clock + d`; `Passivate`
schedules nothing; `ActivateOne target` schedules the target at the current
clock and nothing for the current entity. -/
def applyEffect {St L : Type} (k : Nat) (a : Action) (s : Simulation St L) :
    Simulation St L :=
  match a with
  | .hold d => s.schedule_at k (s.clock + d)
  | .passivate => s
  | .activateOne tgt => s.schedule_at tgt s.clock

/-- Outcome of one pass through the scheduler loop. -/
inductive StepResult (St L : Type) where
  | halted
  | failed (err : SimError)
  | stepped (ev : Nat × Nat × StepOut) (s : Simulation St L)

/-- Modelled from the spec, states **Dispatching**, **Resuming** and
**Applying**: pop the earliest FEL entry; halt if the FEL is empty or the
entry's timestamp exceeds the limit (leaving the FEL untouched); otherwise
advance the clock to the entry's timestamp, resume the entry's handle and
apply the yielded effect.  The produced event records
`(timestamp, handle, step outcome)`. -/
def stepExec {St L : Type} (limit : Nat) (s : Simulation St L) :
    StepResult St L :=
  match popEarliest s.fel with
  | none => .halted
  | some (e, rest) =>
    if limit < e.timestamp then .halted
    else
      match Simulation.resume e.key { s with clock := e.timestamp, fel := rest } with
      | .error err => .failed err
      | .ok (.completed, s2) => .stepped (e.timestamp, e.key, .completed) s2
      | .ok (.suspended a, s2) =>
        .stepped (e.timestamp, e.key, .suspended a) (applyEffect e.key a s2)

/-- A maximal halting run of the scheduler loop: the trace lists, in order,
the `(timestamp, handle, outcome)` of every dispatched event, and the run
ends only when `stepExec` halts (FEL exhausted or next timestamp past the
limit). -/
inductive RunRel {St L : Type} (limit : Nat) :
    Simulation St L → List (Nat × Nat × StepOut) → Simulation St L → Prop where
  | halt {s : Simulation St L} (h : stepExec limit s = .halted) :
      RunRel limit s [] s
  | step {s s1 s2 : Simulation St L} {ev : Nat × Nat × StepOut}
      {tr : List (Nat × Nat × StepOut)}
      (h : stepExec limit s = .stepped ev s1) (htail : RunRel limit s1 tr s2) :
      RunRel limit s (ev :: tr) s2

/-- Fuel-bounded executable scheduler loop; returns the trace and final state
of a completed (halting, error-free) run, `none` if the fuel runs out or an
entity misuse error aborts the run. -/
def runAux {St L : Type} (limit : Nat) :
    Nat → Simulation St L → Option (List (Nat × Nat × StepOut) × Simulation St L)
  | 0, _ => none
  | fuel + 1, s =>
    match stepExec limit s with
    | .halted => some ([], s)
    | .failed _ => none
    | .stepped ev s1 => (runAux limit fuel s1).map (fun p => (ev :: p.1, p.2))

/-- Modelled from the spec: `run_with_limit(duration)` runs the scheduler
loop until the FEL is exhausted or the next timestamp exceeds `duration`
past the clock at entry (bounded by fuel, which the demo proofs instantiate
large enough). -/
def Simulation.run_with_limit {St L : Type} (fuel : Nat) (d : Nat)
    (s : Simulation St L) :
    Option (List (Nat × Nat × StepOut) × Simulation St L) :=
  runAux (s.clock + d) fuel s

/-- Modelled from the spec, the FEL/clock invariants: no pending event lies
in the past, and every pending entry's sequence number was minted before the
current insertion counter. -/
def Inv {St L : Type} (s : Simulation St L) : Prop :=
  (∀ e ∈ s.fel, s.clock ≤ e.timestamp) ∧ (∀ e ∈ s.fel, e.seq < s.nextSeq)

instance {St L : Type} (s : Simulation St L) : Decidable (Inv s) :=
  inferInstanceAs (Decidable ((∀ e ∈ s.fel, s.clock ≤ e.timestamp) ∧
    (∀ e ∈ s.fel, e.seq < s.nextSeq)))

/-- The post-activation state description for a handle activated at
instant `t`: some pending entry for the handle carries timestamp `t`, every
pending entry for it is at `t` or later, and the clock has reached `t`. -/
def ActP {St L : Type} (k t : Nat) (s : Simulation St L) : Prop :=
  Inv s ∧ t ≤ s.clock ∧ (∃ x ∈ s.fel, x.key = k ∧ x.timestamp = t) ∧
  (∀ x ∈ s.fel, x.key = k → t ≤ x.timestamp)

/-!
## The demo entities (`src/main.rs`)

The two entity bodies are embedded as explicit resumption-step functions:
one Lean step runs the Rust body from a resumption point to its next
`yield`, mirroring the `shared_state.take()` / `shared_state.set(state)`
pairs by threading the store value; a panicking `unwrap()` is `none`.
-/

/-- The auxiliary record of `main.rs` (lines 157-161) tracking whether each
entity is currently passivated. -/
structure Passivated where
  entity_a : Bool
  entity_b : Bool
deriving DecidableEq, Repr

/-- The demo's slot universe: `main` inserts an `Option<Key>` slot (entity
B's future handle, line 26) and a `Passivated` slot (line 29). -/
inductive DemoTy where
  | optKey
  | pass
deriving DecidableEq, Repr

/-- Interpretation of the demo slot types. -/
def DemoTy.interp : DemoTy → Type
  | .optKey => Option Nat
  | .pass => Passivated

/-- The demo's shared store type. -/
abbrev DemoState := State DemoTy DemoTy.interp

/-- `state.get_mut(entity_states_key).unwrap()` followed by a field update
and the mandatory `shared_state.set(state)`; `none` models the `unwrap`
panic when the slot is missing. -/
def updPass (pSlot : StateKey DemoTy.pass) (f : Passivated → Passivated)
    (st : DemoState) : Option DemoState :=
  match State.get pSlot st with
  | none => none
  | some p => some (State.set pSlot (f p) st)

/-- Entity A's resumption points (`entity_a`, lines 50-95): entry and the
three yields of its loop.  Entity B's handle, extracted permanently from the
store at entry (line 55), is carried in the local state. -/
inductive APc where
  | start
  | afterHold (bKey : Nat)
  | afterAct (bKey : Nat)
  | afterPass (bKey : Nat)
deriving DecidableEq, Repr

/-- One resume step of `entity_a` (lines 50-95).  `start` covers lines
53-61 (extract B's key, first `Hold`); `afterHold` covers lines 64-85
(branch on `entity_b`'s passivation: `ActivateOne` or mark `entity_a`
passivated and `Passivate`); `afterAct` covers lines 81-85; `afterPass`
covers lines 89-92 plus the loop back to the `Hold` at line 61. -/
def stepA (bSlot : StateKey DemoTy.optKey) (pSlot : StateKey DemoTy.pass) :
    APc → DemoState → Option (Action × APc × DemoState)
  | .start, cell =>
    match (State.remove bSlot cell).1 with
    | some (some bKey) => some (.hold 5, .afterHold bKey, (State.remove bSlot cell).2)
    | _ => none
  | .afterHold bKey, cell =>
    match State.get pSlot cell with
    | none => none
    | some ps =>
      if ps.entity_b then
        some (.activateOne bKey, .afterAct bKey, cell)
      else
        match updPass pSlot (fun p => { p with entity_a := true }) cell with
        | none => none
        | some cell2 => some (.passivate, .afterPass bKey, cell2)
  | .afterAct bKey, cell =>
    match updPass pSlot (fun p => { p with entity_a := true }) cell with
    | none => none
    | some cell2 => some (.passivate, .afterPass bKey, cell2)
  | .afterPass bKey, cell =>
    match updPass pSlot (fun p => { p with entity_a := false }) cell with
    | none => none
    | some cell2 => some (.hold 5, .afterHold bKey, cell2)

/-- Entity B's resumption points (`entity_b`, lines 97-155): entry, after
the initial passivate, and the three yields of its loop. -/
inductive BPc where
  | start
  | afterPass0
  | afterHold
  | afterAct
  | afterPass
deriving DecidableEq, Repr

/-- One resume step of `entity_b` (lines 97-155).  `start` covers lines
100-110 (mark `entity_b` passivated, `Passivate`); `afterPass0` covers
lines 114-121; `afterHold` covers lines 124-145 (branch on `entity_a`'s
passivation); `afterAct` covers lines 141-145; `afterPass` covers lines
149-152 plus the loop back to the `Hold` at line 121.  Entity A's handle is
the captured parameter `aKey` (line 97). -/
def stepB (aKey : Nat) (pSlot : StateKey DemoTy.pass) :
    BPc → DemoState → Option (Action × BPc × DemoState)
  | .start, cell =>
    match updPass pSlot (fun p => { p with entity_b := true }) cell with
    | none => none
    | some cell2 => some (.passivate, .afterPass0, cell2)
  | .afterPass0, cell =>
    match updPass pSlot (fun p => { p with entity_b := false }) cell with
    | none => none
    | some cell2 => some (.hold 5, .afterHold, cell2)
  | .afterHold, cell =>
    match State.get pSlot cell with
    | none => none
    | some ps =>
      if ps.entity_a then
        some (.activateOne aKey, .afterAct, cell)
      else
        match updPass pSlot (fun p => { p with entity_b := true }) cell with
        | none => none
        | some cell2 => some (.passivate, .afterPass, cell2)
  | .afterAct, cell =>
    match updPass pSlot (fun p => { p with entity_b := true }) cell with
    | none => none
    | some cell2 => some (.passivate, .afterPass, cell2)
  | .afterPass, cell =>
    match updPass pSlot (fun p => { p with entity_b := false }) cell with
    | none => none
    | some cell2 => some (.hold 5, .afterHold, cell2)

/-- Local resumption state for the demo registry: entity A's or B's. -/
abbrev DemoL := Sum APc BPc

/-- The key returned by the first `insert` of `main` (line 26). -/
def bSlotD : StateKey DemoTy.optKey := { idx := 0 }

/-- The key returned by the second `insert` of `main` (line 29). -/
def pSlotD : StateKey DemoTy.pass := { idx := 1 }

/-- The demo store after `main`'s setup (lines 23-40): slot 0 holds
`Some(b_key)` (entity B's handle 1, patched in at line 36) and slot 1 holds
the all-false `Passivated` record. -/
def demoStore : DemoState :=
  let r1 := State.insert DemoTy.optKey none (State.empty DemoTy.interp)
  let r2 := State.insert DemoTy.pass
    { entity_a := false, entity_b := false } r1.2
  State.set r1.1 (some 1) r2.2

/-- Entity A as a registry entry. -/
def entA : EntityC DemoState DemoL :=
  { step := fun l st =>
      match l with
      | .inl pc => (stepA bSlotD pSlotD pc st).map
          (fun r => (.suspended r.1, Sum.inl r.2.1, r.2.2))
      | .inr _ => none,
    locState := Sum.inl APc.start,
    alive := true }

/-- Entity B as a registry entry; entity A's handle is 0. -/
def entB : EntityC DemoState DemoL :=
  { step := fun l st =>
      match l with
      | .inr pc => (stepB 0 pSlotD pc st).map
          (fun r => (.suspended r.1, Sum.inr r.2.1, r.2.2))
      | .inl _ => none,
    locState := Sum.inr BPc.start,
    alive := true }

/-- The demo simulation right before `run_with_limit` (`main.rs` lines
14-44): both entities registered (A's handle 0, B's handle 1), then B
scheduled now first (line 43), then A (line 44). -/
def demoSim : Simulation DemoState DemoL :=
  let p1 := Simulation.add_generator entA (Simulation.init demoStore)
  let p2 := Simulation.add_generator entB p1.2
  Simulation.schedule_now 0 (Simulation.schedule_now 1 p2.2)

/-- The state reached after one (successful) pass of the scheduler loop;
used to name intermediate states of concrete runs. -/
def stepState {St L : Type} (limit : Nat) (s : Simulation St L) :
    Simulation St L :=
  match stepExec limit s with
  | .stepped _ s2 => s2
  | _ => s

/-- Whether an action is the `Passivate` effect. -/
def isPass : Action → Bool
  | .passivate => true
  | _ => false

/-- The value entity A's own `Passivated` flag holds when entity A sits at a
given resumption point: `true` exactly when it is suspended at a
`Passivate` yield. -/
def aInFlag : APc → Bool
  | .afterPass _ => true
  | _ => false

/-- The value entity B's own `Passivated` flag holds when entity B sits at a
given resumption point: `true` exactly at its two `Passivate` yields. -/
def bInFlag : BPc → Bool
  | .afterPass0 => true
  | .afterPass => true
  | _ => false

/-- Trace and final state of the demo run (fuel 30 amply covers its five
events). -/
def demoRun : List (Nat × Nat × StepOut) × Simulation DemoState DemoL :=
  (runAux 60 30 demoSim).getD ([], demoSim)

/-- The demo run again under a different fuel bound. -/
def demoRunB : List (Nat × Nat × StepOut) × Simulation DemoState DemoL :=
  (runAux 60 42 demoSim).getD ([], demoSim)

/-- Demo state after entity B's opening `Passivate` step. -/
def demoS1 : Simulation DemoState DemoL := stepState 60 demoSim

/-- Trace and final state of the continuation run from `demoS1`. -/
def demoS1Run : List (Nat × Nat × StepOut) × Simulation DemoState DemoL :=
  (runAux 60 29 demoS1).getD ([], demoS1)

/-- Demo state two steps in, just before entity A's `ActivateOne` step. -/
def demoS2 : Simulation DemoState DemoL := stepState 60 demoS1

/-- A simulation whose only pending event lies beyond a 60-second budget. -/
def overBudgetSim : Simulation Nat Unit :=
  { clock := 0, fel := [{ timestamp := 61, seq := 0, key := 0 }],
    nextSeq := 1, entities := [], state := 0 }

/-- Result of running `overBudgetSim` with a 60-second budget. -/
def overBudgetRun : List (Nat × Nat × StepOut) × Simulation Nat Unit :=
  (Simulation.run_with_limit 5 60 overBudgetSim).getD ([], overBudgetSim)

/-- A kernel with no registered entities. -/
def emptySim : Simulation Nat Unit := Simulation.init 0

/-- Entity A's first resume step on the demo store. -/
def demoStepARes : Action × APc × DemoState :=
  (stepA bSlotD pSlotD APc.start demoStore).getD (.passivate, .start, demoStore)

/-- Entity B's first resume step on the demo store. -/
def demoStepBRes : Action × BPc × DemoState :=
  (stepB 0 pSlotD BPc.start demoStore).getD (.passivate, .start, demoStore)

theorem FelEntry.lexLe_refl (a : FelEntry) : FelEntry.lexLe a a := by
  unfold FelEntry.lexLe
  omega

theorem FelEntry.lexLe_trans {a b c : FelEntry} (h1 : FelEntry.lexLe a b)
    (h2 : FelEntry.lexLe b c) : FelEntry.lexLe a c := by
  unfold FelEntry.lexLe at h1 h2 ⊢
  omega

theorem FelEntry.lexLe_total (a b : FelEntry) :
    FelEntry.lexLe a b ∨ FelEntry.lexLe b a := by
  unfold FelEntry.lexLe
  omega

theorem popEarliest_eq_none_iff {l : List FelEntry} :
    popEarliest l = none ↔ l = [] := by
  cases l with
  | nil => simp [popEarliest]
  | cons e es =>
    simp only [popEarliest]
    cases h : popEarliest es with
    | none => simp
    | some p =>
      cases p with
      | mk m rest => by_cases hle : FelEntry.lexLe e m <;> simp [hle]

theorem popEarliest_perm {l : List FelEntry} {e : FelEntry} {rest : List FelEntry}
    (h : popEarliest l = some (e, rest)) : l.Perm (e :: rest) := by
  induction l generalizing e rest with
  | nil => simp [popEarliest] at h
  | cons a es ih =>
    cases hes : popEarliest es with
    | none =>
      simp only [popEarliest, hes, Option.some.injEq, Prod.mk.injEq] at h
      obtain ⟨rfl, rfl⟩ := h
      exact List.Perm.refl _
    | some p =>
      cases p with
      | mk m r =>
        simp only [popEarliest, hes] at h
        by_cases hle : FelEntry.lexLe a m
        · rw [if_pos hle] at h
          simp only [Option.some.injEq, Prod.mk.injEq] at h
          obtain ⟨rfl, rfl⟩ := h
          exact List.Perm.refl _
        · rw [if_neg hle] at h
          simp only [Option.some.injEq, Prod.mk.injEq] at h
          obtain ⟨rfl, rfl⟩ := h
          exact ((ih hes).cons a).trans (List.Perm.swap m a r)

theorem popEarliest_mem {l : List FelEntry} {e : FelEntry} {rest : List FelEntry}
    (h : popEarliest l = some (e, rest)) : e ∈ l :=
  (popEarliest_perm h).symm.subset (List.mem_cons_self e rest)

theorem popEarliest_min {l : List FelEntry} {e : FelEntry} {rest : List FelEntry}
    (h : popEarliest l = some (e, rest)) : ∀ x ∈ l, FelEntry.lexLe e x := by
  induction l generalizing e rest with
  | nil => simp [popEarliest] at h
  | cons a es ih =>
    cases hes : popEarliest es with
    | none =>
      simp only [popEarliest, hes, Option.some.injEq, Prod.mk.injEq] at h
      obtain ⟨rfl, rfl⟩ := h
      intro x hx
      rcases List.mem_cons.mp hx with rfl | hx'
      · exact FelEntry.lexLe_refl _
      · rw [popEarliest_eq_none_iff.mp hes] at hx'
        simp at hx'
    | some p =>
      cases p with
      | mk m r =>
        simp only [popEarliest, hes] at h
        by_cases hle : FelEntry.lexLe a m
        · rw [if_pos hle] at h
          simp only [Option.some.injEq, Prod.mk.injEq] at h
          obtain ⟨rfl, rfl⟩ := h
          intro x hx
          rcases List.mem_cons.mp hx with rfl | hx'
          · exact FelEntry.lexLe_refl _
          · exact FelEntry.lexLe_trans hle (ih hes x hx')
        · rw [if_neg hle] at h
          simp only [Option.some.injEq, Prod.mk.injEq] at h
          obtain ⟨rfl, rfl⟩ := h
          intro x hx
          rcases List.mem_cons.mp hx with rfl | hx'
          · rcases FelEntry.lexLe_total x m with h1 | h1
            · exact absurd h1 hle
            · exact h1
          · exact ih hes x hx'

theorem popEarliest_mem_rest {l : List FelEntry} {e x : FelEntry} {rest : List FelEntry}
    (h : popEarliest l = some (e, rest)) (hx : x ∈ l) (hne : x ≠ e) : x ∈ rest := by
  have := (popEarliest_perm h).subset hx
  rcases List.mem_cons.mp this with h1 | h1
  · exact absurd h1 hne
  · exact h1

theorem countKey_eq_zero {k : Nat} {l : List FelEntry} :
    countKey k l = 0 ↔ ∀ e ∈ l, e.key ≠ k := by
  unfold countKey
  rw [List.countP_eq_zero]
  simp

theorem slotFind_append {Ty : Type} {interp : Ty → Type} (i : Nat)
    (l1 l2 : List (Nat × Sigma interp)) :
    slotFind i (l1 ++ l2) =
      match slotFind i l1 with
      | some q => some q
      | none => slotFind i l2 := by
  induction l1 with
  | nil => simp [slotFind]
  | cons p ps ih =>
    by_cases hp : p.1 = i
    · simp [slotFind, hp]
    · simp only [List.cons_append, slotFind, if_neg hp]
      exact ih

theorem slotFind_eq_none {Ty : Type} {interp : Ty → Type} {i : Nat}
    {l : List (Nat × Sigma interp)} (h : ∀ p ∈ l, p.1 ≠ i) :
    slotFind i l = none := by
  induction l with
  | nil => rfl
  | cons p ps ih =>
    simp only [slotFind]
    rw [if_neg (h p (List.mem_cons_self p ps))]
    exact ih (fun q hq => h q (List.mem_cons_of_mem p hq))

theorem slotFind_remove_self {Ty : Type} {interp : Ty → Type} (i : Nat)
    (l : List (Nat × Sigma interp)) : slotFind i (slotRemove i l) = none := by
  induction l with
  | nil => rfl
  | cons p ps ih =>
    by_cases hp : p.1 = i
    · simp only [slotRemove, if_pos hp]
      exact ih
    · simp only [slotRemove, if_neg hp, slotFind]
      exact ih

theorem slotFind_remove_ne {Ty : Type} {interp : Ty → Type} {i j : Nat}
    (hne : i ≠ j) (l : List (Nat × Sigma interp)) :
    slotFind i (slotRemove j l) = slotFind i l := by
  induction l with
  | nil => rfl
  | cons p ps ih =>
    by_cases hp : p.1 = j
    · have hpi : p.1 ≠ i := by rw [hp]; exact fun h => hne h.symm
      simp only [slotRemove, if_pos hp, slotFind, if_neg hpi]
      exact ih
    · simp only [slotRemove, if_neg hp, slotFind]
      by_cases hpi : p.1 = i
      · rw [if_pos hpi, if_pos hpi]
      · rw [if_neg hpi, if_neg hpi]
        exact ih

theorem slotFind_set_self {Ty : Type} {interp : Ty → Type} (i : Nat)
    (v : Sigma interp) (l : List (Nat × Sigma interp)) :
    slotFind i (slotSet i v l) = (slotFind i l).map (fun _ => v) := by
  induction l with
  | nil => rfl
  | cons p ps ih =>
    by_cases hp : p.1 = i
    · simp [slotSet, slotFind, hp]
    · simp only [slotSet, if_neg hp, slotFind]
      exact ih

theorem slotFind_set_ne {Ty : Type} {interp : Ty → Type} {i j : Nat}
    (hne : i ≠ j) (v : Sigma interp) (l : List (Nat × Sigma interp)) :
    slotFind i (slotSet j v l) = slotFind i l := by
  induction l with
  | nil => rfl
  | cons p ps ih =>
    by_cases hp : p.1 = j
    · have hpi : p.1 ≠ i := by rw [hp]; exact fun h => hne h.symm
      have hji : j ≠ i := fun h => hne h.symm
      simp only [slotSet, if_pos hp, slotFind, if_neg hpi, if_neg hji]
      exact ih
    · simp only [slotSet, if_neg hp, slotFind]
      by_cases hpi : p.1 = i
      · rw [if_pos hpi, if_pos hpi]
      · rw [if_neg hpi, if_neg hpi]
        exact ih

theorem slotRemove_subset {Ty : Type} {interp : Ty → Type} {i : Nat}
    {p : Nat × Sigma interp} {l : List (Nat × Sigma interp)}
    (h : p ∈ slotRemove i l) : p ∈ l := by
  induction l with
  | nil => exact absurd h (List.not_mem_nil p)
  | cons q qs ih =>
    simp only [slotRemove] at h
    by_cases hq : q.1 = i
    · rw [if_pos hq] at h
      exact List.mem_cons_of_mem q (ih h)
    · rw [if_neg hq] at h
      rcases List.mem_cons.mp h with rfl | h'
      · exact List.mem_cons_self p qs
      · exact List.mem_cons_of_mem q (ih h')

theorem slotSet_fst_mem {Ty : Type} {interp : Ty → Type} {i : Nat}
    {v : Sigma interp} {p : Nat × Sigma interp} {l : List (Nat × Sigma interp)}
    (h : p ∈ slotSet i v l) : ∃ q ∈ l, q.1 = p.1 := by
  induction l with
  | nil => exact absurd h (List.not_mem_nil p)
  | cons q qs ih =>
    simp only [slotSet] at h
    by_cases hq : q.1 = i
    · rw [if_pos hq] at h
      rcases List.mem_cons.mp h with rfl | h'
      · exact ⟨q, List.mem_cons_self q qs, hq⟩
      · obtain ⟨q2, hq2, he⟩ := ih h'
        exact ⟨q2, List.mem_cons_of_mem q hq2, he⟩
    · rw [if_neg hq] at h
      rcases List.mem_cons.mp h with rfl | h'
      · exact ⟨p, List.mem_cons_self p qs, rfl⟩
      · obtain ⟨q2, hq2, he⟩ := ih h'
        exact ⟨q2, List.mem_cons_of_mem q hq2, he⟩

theorem State.get_empty {Ty : Type} [DecidableEq Ty] {interp : Ty → Type}
    {t : Ty} (k : @StateKey Ty t) : State.get k (State.empty interp) = none := rfl

theorem State.get_isSome_slotFind {Ty : Type} [DecidableEq Ty]
    {interp : Ty → Type} {t : Ty} {k : @StateKey Ty t} {s : State Ty interp}
    (h : (State.get k s).isSome) : (slotFind k.idx s.slots).isSome := by
  unfold State.get at h
  cases hf : slotFind k.idx s.slots with
  | none => rw [hf] at h; simp at h
  | some q => simp [hf]

theorem State.get_set_self {Ty : Type} [DecidableEq Ty] {interp : Ty → Type}
    {t : Ty} (k : @StateKey Ty t) (v : interp t) (s : State Ty interp)
    (h : (slotFind k.idx s.slots).isSome) :
    State.get k (State.set k v s) = some v := by
  unfold State.get State.set
  simp only [slotFind_set_self]
  cases hf : slotFind k.idx s.slots with
  | none => rw [hf] at h; simp at h
  | some q => simp

theorem State.get_set_ne {Ty : Type} [DecidableEq Ty] {interp : Ty → Type}
    {t t2 : Ty} (k : @StateKey Ty t) (k2 : @StateKey Ty t2) (v2 : interp t2)
    (s : State Ty interp) (h : k.idx ≠ k2.idx) :
    State.get k (State.set k2 v2 s) = State.get k s := by
  unfold State.get State.set
  rw [slotFind_set_ne h]

theorem State.get_remove_self {Ty : Type} [DecidableEq Ty] {interp : Ty → Type}
    {t : Ty} (k : @StateKey Ty t) (s : State Ty interp) :
    State.get k (State.remove k s).2 = none := by
  unfold State.get State.remove
  rw [slotFind_remove_self]

theorem State.get_remove_ne {Ty : Type} [DecidableEq Ty] {interp : Ty → Type}
    {t t2 : Ty} (k : @StateKey Ty t) (k2 : @StateKey Ty t2)
    (s : State Ty interp) (h : k.idx ≠ k2.idx) :
    State.get k (State.remove k2 s).2 = State.get k s := by
  unfold State.get State.remove
  rw [slotFind_remove_ne h]

theorem State.get_insert_self {Ty : Type} [DecidableEq Ty] {interp : Ty → Type}
    (t : Ty) (v : interp t) (s : State Ty interp) (hwf : StoreWF s) :
    State.get (State.insert t v s).1 (State.insert t v s).2 = some v := by
  unfold State.get State.insert
  simp only [slotFind_append]
  rw [slotFind_eq_none (fun p hp => Nat.ne_of_lt (hwf p hp))]
  simp [slotFind]

theorem State.get_insert_other {Ty : Type} [DecidableEq Ty] {interp : Ty → Type}
    {t t2 : Ty} (k : @StateKey Ty t2) (v : interp t) (s : State Ty interp)
    (h : k.idx ≠ s.nextIdx) :
    State.get k (State.insert t v s).2 = State.get k s := by
  unfold State.get State.insert
  simp only [slotFind_append]
  cases hf : slotFind k.idx s.slots with
  | none =>
    have hne : s.nextIdx ≠ k.idx := fun hq => h hq.symm
    simp [slotFind, hne]
  | some q => simp

theorem StoreWF_insert {Ty : Type} {interp : Ty → Type} (t : Ty) (v : interp t)
    (s : State Ty interp) (hwf : StoreWF s) : StoreWF (State.insert t v s).2 := by
  intro p hp
  have hp' : p ∈ s.slots ++ [(s.nextIdx, ⟨t, v⟩)] := hp
  have hgoal : (State.insert t v s).2.nextIdx = s.nextIdx + 1 := rfl
  rw [hgoal]
  rcases List.mem_append.mp hp' with h' | h'
  · exact Nat.lt_succ_of_lt (hwf p h')
  · rw [List.mem_singleton] at h'
    rw [h']
    exact Nat.lt_succ_self _

theorem StoreWF_remove {Ty : Type} [DecidableEq Ty] {interp : Ty → Type}
    {t : Ty} (k : @StateKey Ty t) (s : State Ty interp) (hwf : StoreWF s) :
    StoreWF (State.remove k s).2 := by
  intro p hp
  exact hwf p (slotRemove_subset hp)

theorem StoreWF_set {Ty : Type} {interp : Ty → Type} {t : Ty}
    (k : @StateKey Ty t) (v : interp t) (s : State Ty interp) (hwf : StoreWF s) :
    StoreWF (State.set k v s) := by
  intro p hp
  obtain ⟨q, hq, he⟩ := slotSet_fst_mem hp
  rw [← he]
  exact hwf q hq

theorem runAux_sound {St L : Type} {limit fuel : Nat} {s s2 : Simulation St L}
    {tr : List (Nat × Nat × StepOut)}
    (h : runAux limit fuel s = some (tr, s2)) : RunRel limit s tr s2 := by
  induction fuel generalizing s tr with
  | zero => simp [runAux] at h
  | succ n ih =>
    rw [runAux] at h
    cases hstep : stepExec limit s with
    | halted =>
      simp only [hstep, Option.some.injEq, Prod.mk.injEq] at h
      obtain ⟨rfl, rfl⟩ := h
      exact RunRel.halt hstep
    | failed err =>
      simp only [hstep] at h
      cases h
    | stepped ev s1 =>
      simp only [hstep] at h
      cases haux : runAux limit n s1 with
      | none => rw [haux] at h; simp at h
      | some p =>
        rw [haux] at h
        simp only [Option.map_some', Option.some.injEq, Prod.mk.injEq] at h
        obtain ⟨rfl, rfl⟩ := h
        exact RunRel.step hstep (ih haux)

theorem resume_frame {St L : Type} {k : Nat} {s s2 : Simulation St L}
    {out : StepOut} (h : Simulation.resume k s = .ok (out, s2)) :
    s2.fel = s.fel ∧ s2.clock = s.clock ∧ s2.nextSeq = s.nextSeq := by
  unfold Simulation.resume at h
  cases hl : s.entities[k]? with
  | none =>
    simp only [hl] at h
    cases h
  | some ent =>
    simp only [hl] at h
    cases ha : ent.alive with
    | false => simp [ha] at h
    | true =>
      simp only [ha, if_true] at h
      cases hs : ent.step ent.locState s.state with
      | none =>
        simp only [hs] at h
        cases h
      | some r =>
        obtain ⟨out2, l2, st2⟩ := r
        simp only [hs, Except.ok.injEq, Prod.mk.injEq] at h
        obtain ⟨rfl, rfl⟩ := h
        exact ⟨rfl, rfl, rfl⟩

theorem popEarliest_rest_subset {l : List FelEntry} {e : FelEntry}
    {rest : List FelEntry} (h : popEarliest l = some (e, rest)) :
    ∀ x ∈ rest, x ∈ l :=
  fun x hx => (popEarliest_perm h).symm.subset (List.mem_cons_of_mem e hx)

theorem popEarliest_min_timestamp {l : List FelEntry} {e : FelEntry}
    {rest : List FelEntry} (h : popEarliest l = some (e, rest)) :
    ∀ x ∈ l, e.timestamp ≤ x.timestamp := by
  intro x hx
  have hle := popEarliest_min h x hx
  unfold FelEntry.lexLe at hle
  omega

/-- One-step dissection of the scheduler loop: a stepped outcome pops the
minimal FEL entry (below the limit), advances the clock to its timestamp,
and transforms the FEL exactly as the yielded effect dictates. -/
theorem step_anatomy {St L : Type} {limit t k : Nat} {out : StepOut}
    {s s1 : Simulation St L}
    (h : stepExec limit s = .stepped (t, k, out) s1) :
    ∃ e rest, popEarliest s.fel = some (e, rest) ∧ e.timestamp = t ∧
      e.key = k ∧ t ≤ limit ∧ s1.clock = t ∧
      ((∃ d, out = .suspended (.hold d) ∧
          s1.fel = rest ++ [{ timestamp := t + d, seq := s.nextSeq, key := k }] ∧
          s1.nextSeq = s.nextSeq + 1) ∨
       (out = .suspended .passivate ∧ s1.fel = rest ∧ s1.nextSeq = s.nextSeq) ∨
       (∃ tgt, out = .suspended (.activateOne tgt) ∧
          s1.fel = rest ++ [{ timestamp := t, seq := s.nextSeq, key := tgt }] ∧
          s1.nextSeq = s.nextSeq + 1) ∨
       (out = .completed ∧ s1.fel = rest ∧ s1.nextSeq = s.nextSeq)) := by
  unfold stepExec at h
  cases hpop : popEarliest s.fel with
  | none =>
    simp only [hpop] at h
    cases h
  | some pr =>
    obtain ⟨e, rest⟩ := pr
    simp only [hpop] at h
    by_cases hlim : limit < e.timestamp
    · rw [if_pos hlim] at h
      cases h
    · rw [if_neg hlim] at h
      cases hres : Simulation.resume e.key
          { s with clock := e.timestamp, fel := rest } with
      | error err =>
        simp only [hres] at h
        cases h
      | ok r =>
        obtain ⟨out0, s2⟩ := r
        obtain ⟨hfel2, hclock2, hseq2⟩ := resume_frame hres
        cases out0 with
        | completed =>
          simp only [hres, StepResult.stepped.injEq, Prod.mk.injEq] at h
          obtain ⟨⟨rfl, rfl, rfl⟩, rfl⟩ := h
          exact ⟨e, rest, rfl, rfl, rfl, by omega, hclock2,
            Or.inr (Or.inr (Or.inr ⟨rfl, hfel2, hseq2⟩))⟩
        | suspended a =>
          simp only [hres, StepResult.stepped.injEq, Prod.mk.injEq] at h
          obtain ⟨⟨rfl, rfl, rfl⟩, rfl⟩ := h
          cases a with
          | hold d =>
            refine ⟨e, rest, rfl, rfl, rfl, by omega, ?_, ?_⟩
            · show (Simulation.schedule_at e.key (s2.clock + d) s2).clock = e.timestamp
              simp [Simulation.schedule_at, hclock2]
            · refine Or.inl ⟨d, rfl, ?_, ?_⟩
              · show (Simulation.schedule_at e.key (s2.clock + d) s2).fel = _
                simp [Simulation.schedule_at, hclock2, hfel2, hseq2]
              · show (Simulation.schedule_at e.key (s2.clock + d) s2).nextSeq = _
                simp [Simulation.schedule_at, hseq2]
          | passivate =>
            exact ⟨e, rest, rfl, rfl, rfl, by omega, hclock2,
              Or.inr (Or.inl ⟨rfl, hfel2, hseq2⟩)⟩
          | activateOne tgt =>
            refine ⟨e, rest, rfl, rfl, rfl, by omega, ?_, ?_⟩
            · show (Simulation.schedule_at tgt s2.clock s2).clock = e.timestamp
              simp [Simulation.schedule_at, hclock2]
            · refine Or.inr (Or.inr (Or.inl ⟨tgt, rfl, ?_, ?_⟩))
              · show (Simulation.schedule_at tgt s2.clock s2).fel = _
                simp [Simulation.schedule_at, hclock2, hfel2, hseq2]
              · show (Simulation.schedule_at tgt s2.clock s2).nextSeq = _
                simp [Simulation.schedule_at, hseq2]

/-- The scheduler loop preserves the FEL/clock invariants; the clock moves
exactly to the popped timestamp, which is never in the past. -/
theorem inv_step {St L : Type} {limit t k : Nat} {out : StepOut}
    {s s1 : Simulation St L} (hInv : Inv s)
    (h : stepExec limit s = .stepped (t, k, out) s1) :
    Inv s1 ∧ s.clock ≤ t ∧ s1.clock = t ∧ s.nextSeq ≤ s1.nextSeq := by
  obtain ⟨e, rest, hpop, het, hek, hlim, hclock, hcases⟩ := step_anatomy h
  have hclk0 : s.clock ≤ t := by
    have := hInv.1 e (popEarliest_mem hpop)
    omega
  have hrest_t : ∀ x ∈ rest, t ≤ x.timestamp := by
    intro x hx
    have := popEarliest_min_timestamp hpop x (popEarliest_rest_subset hpop x hx)
    omega
  have hrest_seq : ∀ x ∈ rest, x.seq < s.nextSeq :=
    fun x hx => hInv.2 x (popEarliest_rest_subset hpop x hx)
  rcases hcases with ⟨d, _, hfel, hseq⟩ | ⟨_, hfel, hseq⟩ |
      ⟨tgt, _, hfel, hseq⟩ | ⟨_, hfel, hseq⟩
  · refine ⟨⟨?_, ?_⟩, hclk0, hclock, by omega⟩
    · intro x hx
      rw [hfel] at hx
      rcases List.mem_append.mp hx with hx' | hx'
      · rw [hclock]
        exact hrest_t x hx'
      · rw [List.mem_singleton] at hx'
        rw [hx', hclock]
        exact Nat.le_add_right t d
    · intro x hx
      rw [hfel] at hx
      rcases List.mem_append.mp hx with hx' | hx'
      · have := hrest_seq x hx'
        omega
      · rw [List.mem_singleton] at hx'
        rw [hx', hseq]
        exact Nat.lt_succ_self s.nextSeq
  · refine ⟨⟨?_, ?_⟩, hclk0, hclock, by omega⟩
    · intro x hx
      rw [hfel] at hx
      rw [hclock]
      exact hrest_t x hx
    · intro x hx
      rw [hfel] at hx
      rw [hseq]
      exact hrest_seq x hx
  · refine ⟨⟨?_, ?_⟩, hclk0, hclock, by omega⟩
    · intro x hx
      rw [hfel] at hx
      rcases List.mem_append.mp hx with hx' | hx'
      · rw [hclock]
        exact hrest_t x hx'
      · rw [List.mem_singleton] at hx'
        rw [hx', hclock]
    · intro x hx
      rw [hfel] at hx
      rcases List.mem_append.mp hx with hx' | hx'
      · have := hrest_seq x hx'
        omega
      · rw [List.mem_singleton] at hx'
        rw [hx', hseq]
        exact Nat.lt_succ_self s.nextSeq
  · refine ⟨⟨?_, ?_⟩, hclk0, hclock, by omega⟩
    · intro x hx
      rw [hfel] at hx
      rw [hclock]
      exact hrest_t x hx
    · intro x hx
      rw [hfel] at hx
      rw [hseq]
      exact hrest_seq x hx

/-- C8: the simulation is deterministic: from one and the same simulation
state (fixed `add_generator`/`schedule_*` history and fixed entity logic),
any two maximal runs of the scheduler loop produce the same trace of
`(timestamp, handle, outcome)` triples and the same final state. -/
theorem run_determinism {St L : Type} {limit : Nat} {s s1 s2 : Simulation St L}
    {tr1 tr2 : List (Nat × Nat × StepOut)}
    (h1 : RunRel limit s tr1 s1) (h2 : RunRel limit s tr2 s2) :
    tr1 = tr2 ∧ s1 = s2 := by
  induction h1 generalizing tr2 s2 with
  | halt hh =>
    cases h2 with
    | halt hh2 => exact ⟨rfl, rfl⟩
    | step hs2 htail2 =>
      rw [hh] at hs2
      cases hs2
  | @step sa sb sc ev tr hs htail ih =>
    cases h2 with
    | halt hh2 =>
      rw [hh2] at hs
      cases hs
    | step hs2 htail2 =>
      rw [hs] at hs2
      injection hs2 with hev hst
      subst hev
      subst hst
      obtain ⟨htr, hfin⟩ := ih htail2
      exact ⟨by rw [htr], hfin⟩

theorem run_chain {St L : Type} {limit : Nat} {s s2 : Simulation St L}
    {tr : List (Nat × Nat × StepOut)} (hrun : RunRel limit s tr s2) :
    Inv s →
      List.Chain' (fun x y => x.1 ≤ y.1) tr ∧ (∀ ev ∈ tr, s.clock ≤ ev.1) ∧
      s.clock ≤ s2.clock ∧ Inv s2 := by
  induction hrun with
  | halt _ =>
    intro hInv
    exact ⟨List.chain'_nil, by simp, Nat.le_refl _, hInv⟩
  | @step sa sb sc ev tr hs htail ih =>
    intro hInv
    obtain ⟨t, k, out⟩ := ev
    obtain ⟨hInv1, hclk_le, hclk_eq, _⟩ := inv_step hInv hs
    obtain ⟨hchain, hall, hclk2, hInv2⟩ := ih hInv1
    refine ⟨?_, ?_, ?_, hInv2⟩
    · rw [List.chain'_cons']
      refine ⟨?_, hchain⟩
      intro y hy
      have hytr : y ∈ tr := List.mem_of_mem_head? hy
      have := hall y hytr
      simp only
      omega
    · intro ev2 hev2
      rcases List.mem_cons.mp hev2 with rfl | hev2'
      · exact hclk_le
      · have := hall ev2 hev2'
        omega
    · omega

theorem kfree_step {St L : Type} {limit t j k : Nat} {out : StepOut}
    {s s1 : Simulation St L} (hfree : ∀ x ∈ s.fel, x.key ≠ k)
    (h : stepExec limit s = .stepped (t, j, out) s1) :
    j ≠ k ∧ (out ≠ .suspended (.activateOne k) → ∀ x ∈ s1.fel, x.key ≠ k) := by
  obtain ⟨e, rest, hpop, het, hek, hlim, hclock, hcases⟩ := step_anatomy h
  have hj : j ≠ k := by
    rw [← hek]
    exact hfree e (popEarliest_mem hpop)
  refine ⟨hj, ?_⟩
  intro hout x hx
  have hrest : ∀ y ∈ rest, y.key ≠ k :=
    fun y hy => hfree y (popEarliest_rest_subset hpop y hy)
  rcases hcases with ⟨d, _, hfel, _⟩ | ⟨_, hfel, _⟩ | ⟨tgt, hout2, hfel, _⟩ |
      ⟨_, hfel, _⟩
  · rw [hfel] at hx
    rcases List.mem_append.mp hx with hx' | hx'
    · exact hrest x hx'
    · rw [List.mem_singleton] at hx'
      rw [hx']
      exact hj
  · rw [hfel] at hx
    exact hrest x hx
  · rw [hfel] at hx
    rcases List.mem_append.mp hx with hx' | hx'
    · exact hrest x hx'
    · rw [List.mem_singleton] at hx'
      rw [hx']
      intro htgt
      have h3 : tgt = k := htgt
      rw [hout2] at hout
      exact hout (by rw [h3])
  · rw [hfel] at hx
    exact hrest x hx

theorem kfree_run {St L : Type} {limit k : Nat} {s s2 : Simulation St L}
    {tr : List (Nat × Nat × StepOut)} (hrun : RunRel limit s tr s2) :
    Inv s → (∀ x ∈ s.fel, x.key ≠ k) →
    ∀ pre t2 j out2 post, tr = pre ++ (t2, j, out2) :: post →
      (∀ e ∈ pre, e.2.2 ≠ StepOut.suspended (.activateOne k)) → j ≠ k := by
  induction hrun with
  | halt _ =>
    intro _ _ pre t2 j out2 post hsplit _
    exact absurd hsplit (by simp)
  | @step sa sb sc ev tr hs htail ih =>
    intro hInv hfree pre t2 j out2 post hsplit hpre
    obtain ⟨ta, ja, oa⟩ := ev
    cases pre with
    | nil =>
      simp only [List.nil_append, List.cons.injEq, Prod.mk.injEq] at hsplit
      obtain ⟨⟨rfl, rfl, rfl⟩, rfl⟩ := hsplit
      exact (kfree_step hfree hs).1
    | cons p pre2 =>
      simp only [List.cons_append, List.cons.injEq] at hsplit
      obtain ⟨rfl, htr⟩ := hsplit
      have hnotact : oa ≠ StepOut.suspended (.activateOne k) :=
        hpre (ta, ja, oa) (List.mem_cons_self _ _)
      have hfree1 := (kfree_step hfree hs).2 hnotact
      have hInv1 := (inv_step hInv hs).1
      exact ih hInv1 hfree1 pre2 t2 j out2 post htr
        (fun e he => hpre e (List.mem_cons_of_mem _ he))

theorem actp_step {St L : Type} {limit t t2 j k : Nat} {out : StepOut}
    {s s1 : Simulation St L} (hP : ActP k t s)
    (h : stepExec limit s = .stepped (t2, j, out) s1) :
    (j = k → t2 = t) ∧ (j ≠ k → ActP k t s1) := by
  obtain ⟨hInv, hclk, ⟨w, hw_mem, hw_key, hw_t⟩, hallk⟩ := hP
  obtain ⟨e, rest, hpop, het, hek, hlim, hclock, hcases⟩ := step_anatomy h
  obtain ⟨hInv1, hclk_le, hclk_eq, _⟩ := inv_step hInv h
  constructor
  · intro hjk
    have h1 : t ≤ e.timestamp := hallk e (popEarliest_mem hpop) (by rw [hek, hjk])
    have h2 : e.timestamp ≤ w.timestamp := popEarliest_min_timestamp hpop w hw_mem
    omega
  · intro hjk
    have hw_ne : w ≠ e := by
      intro hEq
      rw [hEq, hek] at hw_key
      exact hjk hw_key
    have hw_rest : w ∈ rest := popEarliest_mem_rest hpop hw_mem hw_ne
    have hrest_ge : ∀ x ∈ rest, x.key = k → t ≤ x.timestamp :=
      fun x hx hxk => hallk x (popEarliest_rest_subset hpop x hx) hxk
    have ht_clk1 : t ≤ s1.clock := by omega
    rcases hcases with ⟨d, _, hfel, _⟩ | ⟨_, hfel, _⟩ | ⟨tgt, _, hfel, _⟩ |
        ⟨_, hfel, _⟩
    · refine ⟨hInv1, ht_clk1, ⟨w, ?_, hw_key, hw_t⟩, ?_⟩
      · rw [hfel]
        exact List.mem_append_left _ hw_rest
      · intro x hx hxk
        rw [hfel] at hx
        rcases List.mem_append.mp hx with hx' | hx'
        · exact hrest_ge x hx' hxk
        · rw [List.mem_singleton] at hx'
          rw [hx'] at hxk
          exact absurd (hxk : j = k) hjk
    · refine ⟨hInv1, ht_clk1, ⟨w, ?_, hw_key, hw_t⟩, ?_⟩
      · rw [hfel]
        exact hw_rest
      · intro x hx hxk
        rw [hfel] at hx
        exact hrest_ge x hx hxk
    · refine ⟨hInv1, ht_clk1, ⟨w, ?_, hw_key, hw_t⟩, ?_⟩
      · rw [hfel]
        exact List.mem_append_left _ hw_rest
      · intro x hx hxk
        rw [hfel] at hx
        rcases List.mem_append.mp hx with hx' | hx'
        · exact hrest_ge x hx' hxk
        · rw [List.mem_singleton] at hx'
          rw [hx']
          show t ≤ t2
          omega
    · refine ⟨hInv1, ht_clk1, ⟨w, ?_, hw_key, hw_t⟩, ?_⟩
      · rw [hfel]
        exact hw_rest
      · intro x hx hxk
        rw [hfel] at hx
        exact hrest_ge x hx hxk

theorem act_establish {St L : Type} {limit t j k : Nat} {s s1 : Simulation St L}
    (hInv : Inv s) (hfree : ∀ x ∈ s.fel, x.key ≠ k)
    (h : stepExec limit s = .stepped (t, j, .suspended (.activateOne k)) s1) :
    ActP k t s1 := by
  obtain ⟨hInv1, hclk_le, hclk_eq, _⟩ := inv_step hInv h
  obtain ⟨e, rest, hpop, het, hek, hlim, hclock, hcases⟩ := step_anatomy h
  have hrest_ne : ∀ y ∈ rest, y.key ≠ k :=
    fun y hy => hfree y (popEarliest_rest_subset hpop y hy)
  rcases hcases with ⟨d, hout, _, _⟩ | ⟨hout, _, _⟩ | ⟨tgt, hout, hfel, _⟩ |
      ⟨hout, _, _⟩
  · simp at hout
  · simp at hout
  · have htgt : tgt = k := by
      injection hout with hout2
      injection hout2 with hout3
      exact hout3.symm
    subst htgt
    refine ⟨hInv1, by omega, ?_, ?_⟩
    · refine ⟨{ timestamp := t, seq := s.nextSeq, key := tgt }, ?_, rfl, rfl⟩
      rw [hfel]
      exact List.mem_append_right _ (List.mem_singleton.mpr rfl)
    · intro x hx hxk
      rw [hfel] at hx
      rcases List.mem_append.mp hx with hx' | hx'
      · exact absurd hxk (hrest_ne x hx')
      · rw [List.mem_singleton] at hx'
        rw [hx']
  · simp at hout

theorem actp_run {St L : Type} {limit k t : Nat} {s s2 : Simulation St L}
    {tr : List (Nat × Nat × StepOut)} (hrun : RunRel limit s tr s2) :
    ActP k t s →
    ∀ pre t2 j out2 post, tr = pre ++ (t2, j, out2) :: post →
      (∀ e ∈ pre, e.2.1 ≠ k) → j = k → t2 = t := by
  induction hrun with
  | halt _ =>
    intro _ pre t2 j out2 post hsplit _ _
    exact absurd hsplit (by simp)
  | @step sa sb sc ev tr hs htail ih =>
    intro hP pre t2 j out2 post hsplit hpre hjk
    obtain ⟨ta, ja, oa⟩ := ev
    cases pre with
    | nil =>
      simp only [List.nil_append, List.cons.injEq, Prod.mk.injEq] at hsplit
      obtain ⟨⟨rfl, rfl, rfl⟩, rfl⟩ := hsplit
      exact (actp_step hP hs).1 hjk
    | cons p pre2 =>
      simp only [List.cons_append, List.cons.injEq] at hsplit
      obtain ⟨rfl, htr⟩ := hsplit
      have hja : ja ≠ k := hpre (ta, ja, oa) (List.mem_cons_self _ _)
      have hP1 := (actp_step hP hs).2 hja
      exact ih hP1 pre2 t2 j out2 post htr
        (fun e he => hpre e (List.mem_cons_of_mem _ he)) hjk

theorem kfree_activation_run {St L : Type} {limit k : Nat}
    {s s2 : Simulation St L} {tr : List (Nat × Nat × StepOut)}
    (hrun : RunRel limit s tr s2) :
    Inv s → (∀ x ∈ s.fel, x.key ≠ k) →
    ∀ pre t1 j1 post, tr = pre ++ (t1, j1, .suspended (.activateOne k)) :: post →
      (∀ e ∈ pre, e.2.2 ≠ StepOut.suspended (.activateOne k)) →
      ∀ pre2 t2 j2 out2 post2, post = pre2 ++ (t2, j2, out2) :: post2 →
        (∀ e ∈ pre2, e.2.1 ≠ k) → j2 = k → t2 = t1 := by
  induction hrun with
  | halt _ =>
    intro _ _ pre t1 j1 post hsplit _
    exact absurd hsplit (by simp)
  | @step sa sb sc ev tr hs htail ih =>
    intro hInv hfree pre t1 j1 post hsplit hpre
    obtain ⟨ta, ja, oa⟩ := ev
    cases pre with
    | nil =>
      simp only [List.nil_append, List.cons.injEq, Prod.mk.injEq] at hsplit
      obtain ⟨⟨rfl, rfl, rfl⟩, rfl⟩ := hsplit
      have hP := act_establish hInv hfree hs
      exact actp_run htail hP
    | cons p pre2 =>
      simp only [List.cons_append, List.cons.injEq] at hsplit
      obtain ⟨rfl, htr⟩ := hsplit
      have hnotact : oa ≠ StepOut.suspended (.activateOne k) :=
        hpre (ta, ja, oa) (List.mem_cons_self _ _)
      have hfree1 := (kfree_step hfree hs).2 hnotact
      have hInv1 := (inv_step hInv hs).1
      exact ih hInv1 hfree1 pre2 t1 j1 post htr
        (fun e he => hpre e (List.mem_cons_of_mem _ he))

theorem beyond_limit_stays {St L : Type} {limit : Nat} {s s2 : Simulation St L}
    {tr : List (Nat × Nat × StepOut)} (hrun : RunRel limit s tr s2) :
    ∀ e ∈ s.fel, limit < e.timestamp → e ∈ s2.fel := by
  induction hrun with
  | halt _ =>
    intro e he _
    exact he
  | @step sa sb sc ev tr hs htail ih =>
    intro e he hgt
    obtain ⟨ta, ja, oa⟩ := ev
    obtain ⟨e0, rest, hpop, het, hek, hlim, _, hcases⟩ := step_anatomy hs
    have hne : e ≠ e0 := by
      intro hEq
      rw [hEq] at hgt
      omega
    have hrest : e ∈ rest := popEarliest_mem_rest hpop he hne
    have hmem1 : e ∈ sb.fel := by
      rcases hcases with ⟨d, _, hfel, _⟩ | ⟨_, hfel, _⟩ | ⟨tgt, _, hfel, _⟩ |
          ⟨_, hfel, _⟩
      · rw [hfel]
        exact List.mem_append_left _ hrest
      · rw [hfel]
        exact hrest
      · rw [hfel]
        exact List.mem_append_left _ hrest
      · rw [hfel]
        exact hrest
    exact ih e hmem1 hgt

theorem final_clock_le {St L : Type} {limit : Nat} {s s2 : Simulation St L}
    {tr : List (Nat × Nat × StepOut)} (hrun : RunRel limit s tr s2) :
    s2.clock = s.clock ∨ s2.clock ≤ limit := by
  induction hrun with
  | halt _ => exact Or.inl rfl
  | @step sa sb sc ev tr hs htail ih =>
    obtain ⟨ta, ja, oa⟩ := ev
    obtain ⟨e0, rest, hpop, het, hek, hlim, hclock, _⟩ := step_anatomy hs
    rcases ih with h1 | h1
    · right
      rw [h1, hclock]
      omega
    · right
      exact h1

theorem countKey_perm {k : Nat} {l l2 : List FelEntry} (h : l.Perm l2) :
    countKey k l = countKey k l2 :=
  h.countP_eq _

theorem tie_break_aux {St L : Type} {limit : Nat} {s s2 : Simulation St L}
    {tr : List (Nat × Nat × StepOut)} (hrun : RunRel limit s tr s2) :
    ∀ a b : FelEntry, Inv s → a ∈ s.fel →
      a.timestamp = b.timestamp → a.seq < b.seq →
      (∀ x ∈ s.fel, x.key = b.key → x = b) →
      (∀ e ∈ tr, e.2.2 ≠ StepOut.suspended (.activateOne b.key)) →
      ∀ pre t2 out2 post, tr = pre ++ (t2, b.key, out2) :: post →
        (∀ e ∈ pre, e.2.1 ≠ a.key) → False := by
  induction hrun with
  | halt _ =>
    intro a b _ _ _ _ _ _ pre t2 out2 post hsplit _
    exact absurd hsplit (by simp)
  | @step sa sb sc ev tr hs htail ih =>
    intro a b hInv hmem hT hseq huniq hnoact pre t2 out2 post hsplit hpre
    obtain ⟨ta, ja, oa⟩ := ev
    obtain ⟨e0, rest, hpop, het, hek, hlim, hclock, hcases⟩ := step_anatomy hs
    have hkey_ne_b : e0.key ≠ b.key := by
      intro hEq
      have he0b : e0 = b := huniq e0 (popEarliest_mem hpop) hEq
      have hmin := popEarliest_min hpop a hmem
      rw [he0b] at hmin
      unfold FelEntry.lexLe at hmin
      omega
    cases pre with
    | nil =>
      simp only [List.nil_append, List.cons.injEq, Prod.mk.injEq] at hsplit
      obtain ⟨⟨rfl, rfl, rfl⟩, rfl⟩ := hsplit
      exact hkey_ne_b hek
    | cons p pre2 =>
      simp only [List.cons_append, List.cons.injEq] at hsplit
      obtain ⟨rfl, htr⟩ := hsplit
      have hja : ja ≠ a.key := hpre (ta, ja, oa) (List.mem_cons_self _ _)
      have hInv1 := (inv_step hInv hs).1
      have hane : a ≠ e0 := by
        intro hEq
        rw [hEq] at hja
        exact hja hek.symm
      have harest : a ∈ rest := popEarliest_mem_rest hpop hmem hane
      have hnoact_head : oa ≠ StepOut.suspended (.activateOne b.key) :=
        hnoact (ta, ja, oa) (List.mem_cons_self _ _)
      have hnoact1 : ∀ e ∈ tr, e.2.2 ≠ StepOut.suspended (.activateOne b.key) :=
        fun e he => hnoact e (List.mem_cons_of_mem _ he)
      have hrest_uniq : ∀ x ∈ rest, x.key = b.key → x = b :=
        fun x hx hxk => huniq x (popEarliest_rest_subset hpop x hx) hxk
      rcases hcases with ⟨d, hout, hfel, _⟩ | ⟨hout, hfel, _⟩ |
          ⟨tgt, hout, hfel, _⟩ | ⟨hout, hfel, _⟩
      · refine ih a b hInv1 ?_ hT hseq ?_ hnoact1 pre2 t2 out2 post htr
          (fun e he => hpre e (List.mem_cons_of_mem _ he))
        · rw [hfel]
          exact List.mem_append_left _ harest
        · intro x hx hxk
          rw [hfel] at hx
          rcases List.mem_append.mp hx with hx' | hx'
          · exact hrest_uniq x hx' hxk
          · rw [List.mem_singleton] at hx'
            rw [hx'] at hxk
            have : ja = b.key := hxk
            rw [← hek] at this
            exact absurd this hkey_ne_b
      · refine ih a b hInv1 ?_ hT hseq ?_ hnoact1 pre2 t2 out2 post htr
          (fun e he => hpre e (List.mem_cons_of_mem _ he))
        · rw [hfel]
          exact harest
        · intro x hx hxk
          rw [hfel] at hx
          exact hrest_uniq x hx hxk
      · refine ih a b hInv1 ?_ hT hseq ?_ hnoact1 pre2 t2 out2 post htr
          (fun e he => hpre e (List.mem_cons_of_mem _ he))
        · rw [hfel]
          exact List.mem_append_left _ harest
        · intro x hx hxk
          rw [hfel] at hx
          rcases List.mem_append.mp hx with hx' | hx'
          · exact hrest_uniq x hx' hxk
          · rw [List.mem_singleton] at hx'
            rw [hx'] at hxk
            have htgtb : tgt = b.key := hxk
            rw [hout, htgtb] at hnoact_head
            exact absurd rfl hnoact_head
      · refine ih a b hInv1 ?_ hT hseq ?_ hnoact1 pre2 t2 out2 post htr
          (fun e he => hpre e (List.mem_cons_of_mem _ he))
        · rw [hfel]
          exact harest
        · intro x hx hxk
          rw [hfel] at hx
          exact hrest_uniq x hx hxk

/-- C3: equal-timestamp FEL entries are dispatched in insertion order:
`schedule_at` appends an entry carrying the current (monotonically
increasing) sequence counter, every pending entry's sequence is below that
counter, and in any run that never re-activates handle `b.key`, no event for
`b.key` (whose only pending entry is `b`) can occur before an event for
`a.key` when `a` shares `b`'s timestamp and holds the smaller sequence
number. -/
theorem fel_tie_break_order {St L : Type} {limit : Nat}
    {s s2 : Simulation St L} {tr : List (Nat × Nat × StepOut)}
    {a b : FelEntry} (hInv : Inv s) (ha : a ∈ s.fel) (hb : b ∈ s.fel)
    (hT : a.timestamp = b.timestamp) (hseq : a.seq < b.seq)
    (hBuniq : ∀ x ∈ s.fel, x.key = b.key → x = b)
    (hrun : RunRel limit s tr s2)
    (hnoact : ∀ e ∈ tr, e.2.2 ≠ StepOut.suspended (.activateOne b.key)) :
    (∀ k2 t2, (Simulation.schedule_at k2 t2 s).fel =
       s.fel ++ [{ timestamp := t2, seq := s.nextSeq, key := k2 }]) ∧
    (∀ x ∈ s.fel, x.seq < s.nextSeq) ∧
    (∀ pre t2 out2 post, tr = pre ++ (t2, b.key, out2) :: post →
       (∀ e ∈ pre, e.2.1 ≠ a.key) → False) := by
  refine ⟨fun k2 t2 => rfl, hInv.2, ?_⟩
  intro pre t2 out2 post hsplit hpre
  exact tie_break_aux hrun a b hInv ha hT hseq hBuniq hnoact
    pre t2 out2 post hsplit hpre

/-- C2: applying an `ActivateOne(target)` effect schedules the target at
the current clock with a fresh (maximal) sequence number, so all
already-queued same-instant entries dispatch before it; it removes only the
popped entry of the yielding handle and creates no entry for it, so (when
the popped entry was its only one and it is not its own target) the
yielding handle's pending-entry count drops from its previous value by
exactly the popped entry. -/
theorem activate_one_semantics {St L : Type} {limit t k tgt : Nat}
    {s s1 : Simulation St L} (hInv : Inv s)
    (h : stepExec limit s = .stepped (t, k, .suspended (.activateOne tgt)) s1) :
    ∃ e rest, popEarliest s.fel = some (e, rest) ∧ e.key = k ∧
      e.timestamp = t ∧ s1.clock = t ∧
      s1.fel = rest ++ [{ timestamp := t, seq := s.nextSeq, key := tgt }] ∧
      (∀ x ∈ rest, x.seq < s.nextSeq) ∧
      (tgt ≠ k → countKey k s1.fel + 1 = countKey k s.fel) := by
  obtain ⟨e, rest, hpop, het, hek, hlim, hclock, hcases⟩ := step_anatomy h
  rcases hcases with ⟨d, hout, _, _⟩ | ⟨hout, _, _⟩ | ⟨tgt2, hout, hfel, hseq⟩ |
      ⟨hout, _, _⟩
  · simp at hout
  · simp at hout
  · have htgt : tgt2 = tgt := by
      injection hout with h2
      injection h2 with h3
      exact h3.symm
    subst htgt
    refine ⟨e, rest, hpop, hek, het, hclock, hfel, ?_, ?_⟩
    · intro x hx
      exact hInv.2 x (popEarliest_rest_subset hpop x hx)
    · intro hne
      have hperm := popEarliest_perm hpop
      have hcount : countKey k s.fel = countKey k rest + 1 := by
        rw [countKey_perm hperm]
        unfold countKey
        rw [List.countP_cons]
        simp [hek]
      rw [hfel]
      unfold countKey
      rw [List.countP_append]
      have hlast : List.countP (fun e2 : FelEntry => decide (e2.key = k))
          ([{ timestamp := t, seq := s.nextSeq, key := tgt2 }] : List FelEntry) = 0 := by
        simp [hne]
      rw [hlast]
      unfold countKey at hcount
      omega
  · simp at hout

/-- C4: along any run of the scheduler loop the popped timestamps are
non-decreasing, the clock never decreases, the FEL/clock invariant is
preserved to the final state, and after any single step every pending entry
(in particular any entry the step inserted) has a timestamp at or after the
new clock. -/
theorem clock_monotonicity {St L : Type} {limit : Nat} {s s2 : Simulation St L}
    {tr : List (Nat × Nat × StepOut)} (hInv : Inv s)
    (hrun : RunRel limit s tr s2) :
    List.Chain' (fun x y => x.1 ≤ y.1) tr ∧ s.clock ≤ s2.clock ∧ Inv s2 ∧
    (∀ (sa sb : Simulation St L) t k out, Inv sa →
       stepExec limit sa = .stepped (t, k, out) sb →
       ∀ x ∈ sb.fel, sb.clock ≤ x.timestamp) := by
  obtain ⟨hchain, _, hclk, hInv2⟩ := run_chain hrun hInv
  refine ⟨hchain, hclk, hInv2, ?_⟩
  intro sa sb t k out hInva hstep
  exact ((inv_step hInva hstep).1).1

/-- C5: `run_with_limit` on an empty FEL returns at once with the state
(in particular the clock) unchanged; if the earliest pending timestamp
already exceeds the budget it returns at once leaving the FEL untouched;
any pending entry beyond the budget survives to the returned state (the run
is resumable); and on return the clock either never moved or is within the
budget. -/
theorem run_with_limit_budget_halt {St L : Type} {fuel d : Nat}
    {s s2 : Simulation St L} {tr : List (Nat × Nat × StepOut)}
    (h : Simulation.run_with_limit fuel d s = some (tr, s2)) :
    (s.fel = [] → tr = [] ∧ s2 = s) ∧
    (∀ e rest, popEarliest s.fel = some (e, rest) →
       s.clock + d < e.timestamp → tr = [] ∧ s2 = s) ∧
    (∀ e ∈ s.fel, s.clock + d < e.timestamp → e ∈ s2.fel) ∧
    (s2.clock = s.clock ∨ s2.clock ≤ s.clock + d) := by
  have hrel : RunRel (s.clock + d) s tr s2 := runAux_sound h
  refine ⟨?_, ?_, beyond_limit_stays hrel, final_clock_le hrel⟩
  · intro hfel
    have hh : stepExec (s.clock + d) s = .halted := by
      unfold stepExec
      rw [hfel]
      rfl
    cases hrel with
    | halt _ => exact ⟨rfl, rfl⟩
    | step hs _ =>
      rw [hh] at hs
      cases hs
  · intro e rest hpop hgt
    have hh : stepExec (s.clock + d) s = .halted := by
      unfold stepExec
      simp only [hpop]
      rw [if_pos hgt]
    cases hrel with
    | halt _ => exact ⟨rfl, rfl⟩
    | step hs _ =>
      rw [hh] at hs
      cases hs

/-- C6: the typed state store: inserting a value yields a fresh key (absent
from the old store) through which `get` returns exactly the inserted value
and `remove` returns it back; after a `remove` the removed key reads as
`none` (never stale data); `get` through any key is unaffected by a
`remove` of a different key or by an `insert` (stable identity); and
well-formedness is preserved. -/
theorem state_store_semantics {Ty : Type} [inst : DecidableEq Ty]
    {interp : Ty → Type} (s : State Ty interp) (hwf : StoreWF s) (t : Ty)
    (v : interp t) :
    State.get (State.insert t v s).1 (State.insert t v s).2 = some v ∧
    State.get (State.insert t v s).1 s = none ∧
    (State.remove (State.insert t v s).1 (State.insert t v s).2).1 = some v ∧
    (∀ (t2 : Ty) (k2 : StateKey t2),
       State.get k2 (State.remove k2 s).2 = none) ∧
    (∀ (t2 : Ty) (k2 : StateKey t2) (t3 : Ty) (k3 : StateKey t3),
       k2.idx ≠ k3.idx →
       State.get k2 (State.remove k3 s).2 = State.get k2 s) ∧
    (∀ (t2 : Ty) (k2 : StateKey t2), k2.idx ≠ s.nextIdx →
       State.get k2 (State.insert t v s).2 = State.get k2 s) ∧
    StoreWF (State.insert t v s).2 ∧
    (∀ (t2 : Ty) (k2 : StateKey t2), StoreWF (State.remove k2 s).2) := by
  refine ⟨State.get_insert_self t v s hwf, ?_, ?_, ?_, ?_, ?_,
    StoreWF_insert t v s hwf, ?_⟩
  · unfold State.get
    have hidx : (State.insert t v s).1.idx = s.nextIdx := rfl
    rw [hidx, slotFind_eq_none (fun p hp => Nat.ne_of_lt (hwf p hp))]
  · show State.get (State.insert t v s).1 (State.insert t v s).2 = some v
    exact State.get_insert_self t v s hwf
  · intro t2 k2
    exact State.get_remove_self k2 s
  · intro t2 k2 t3 k3 hne
    exact State.get_remove_ne k2 k3 s hne
  · intro t2 k2 hne
    exact State.get_insert_other k2 v s hne
  · intro t2 k2
    exact StoreWF_remove k2 s hwf

/-- C7: resuming a handle with no registered coroutine, or one whose
coroutine has already completed, returns a distinguishable error (the run
aborts; never a silent no-op), while removing an already-removed store key
raises no error and simply returns `none` again. -/
theorem resume_misuse_fails_loudly {St L : Type} (s : Simulation St L)
    (k : Nat) :
    (s.entities[k]? = none →
       Simulation.resume k s = Except.error (SimError.unknownHandle k)) ∧
    (∀ ent, s.entities[k]? = some ent → ent.alive = false →
       Simulation.resume k s = Except.error (SimError.completedHandle k)) ∧
    (∀ (Ty : Type) [inst : DecidableEq Ty] (interp : Ty → Type)
       (s2 : State Ty interp) (t : Ty) (k2 : StateKey t),
       (State.remove k2 (State.remove k2 s2).2).1 = none) := by
  refine ⟨?_, ?_, ?_⟩
  · intro hnone
    unfold Simulation.resume
    rw [hnone]
  · intro ent hsome hdead
    unfold Simulation.resume
    rw [hsome]
    simp [hdead]
  · intro Ty inst interp s2 t k2
    show State.get k2 (State.remove k2 s2).2 = none
    exact State.get_remove_self k2 s2

/-- C1: an entity that yields `Passivate` gets no FEL entry from the
scheduler (its pending-entry count drops to zero when the popped entry was
its only one); in the continuation of the run it is not dispatched again
while no entity has yielded `ActivateOne` targeting it; and once the first
such activation occurs at some instant, the entity's next dispatch carries
exactly that instant's timestamp. -/
theorem passivate_activate_round_trip {St L : Type} {limit t0 k : Nat}
    {s0 s1 s2 : Simulation St L} {tr : List (Nat × Nat × StepOut)}
    (hInv : Inv s0) (hcnt : countKey k s0.fel = 1)
    (hstep : stepExec limit s0 = .stepped (t0, k, .suspended .passivate) s1)
    (hrun : RunRel limit s1 tr s2) :
    countKey k s1.fel = 0 ∧
    (∀ pre t2 j out2 post, tr = pre ++ (t2, j, out2) :: post →
       (∀ e ∈ pre, e.2.2 ≠ StepOut.suspended (.activateOne k)) → j ≠ k) ∧
    (∀ pre t1 j1 post,
       tr = pre ++ (t1, j1, .suspended (.activateOne k)) :: post →
       (∀ e ∈ pre, e.2.2 ≠ StepOut.suspended (.activateOne k)) →
       ∀ pre2 t2 j2 out2 post2, post = pre2 ++ (t2, j2, out2) :: post2 →
         (∀ e ∈ pre2, e.2.1 ≠ k) → j2 = k → t2 = t1) := by
  obtain ⟨e, rest, hpop, het, hek, hlim, hclock, hcases⟩ := step_anatomy hstep
  rcases hcases with ⟨d, hout, _, _⟩ | ⟨hout, hfel, _⟩ | ⟨tgt, hout, _, _⟩ |
      ⟨hout, _, _⟩
  · simp at hout
  case _ =>
    have hperm := popEarliest_perm hpop
    have h1 : countKey k (e :: rest) = countKey k rest + 1 := by
      unfold countKey
      rw [List.countP_cons]
      simp [hek]
    have h2 : countKey k s0.fel = countKey k (e :: rest) := countKey_perm hperm
    have hcnt1 : countKey k s1.fel = 0 := by
      rw [hfel]
      omega
    have hfree1 : ∀ x ∈ s1.fel, x.key ≠ k := countKey_eq_zero.mp hcnt1
    have hInv1 := (inv_step hInv hstep).1
    refine ⟨hcnt1, ?_, ?_⟩
    · intro pre t2 j out2 post hsplit hpre
      exact kfree_run hrun hInv1 hfree1 pre t2 j out2 post hsplit hpre
    · intro pre t1 j1 post hsplit hpre pre2 t2 j2 out2 post2 hsplit2 hpre2 hj2
      exact kfree_activation_run hrun hInv1 hfree1 pre t1 j1 post hsplit hpre
        pre2 t2 j2 out2 post2 hsplit2 hpre2 hj2
  · simp at hout
  · simp at hout

theorem updPass_spec {pSlot : StateKey DemoTy.pass} {f : Passivated → Passivated}
    {st st2 : DemoState} (h : updPass pSlot f st = some st2) :
    ∃ p, State.get pSlot st = some p ∧ State.get pSlot st2 = some (f p) := by
  unfold updPass at h
  cases hg : State.get pSlot st with
  | none =>
    rw [hg] at h
    cases h
  | some p =>
    rw [hg] at h
    simp only [Option.some.injEq] at h
    subst h
    refine ⟨p, rfl, ?_⟩
    exact State.get_set_self pSlot (f p) st
      (State.get_isSome_slotFind (by rw [hg]; rfl))

/-- C9: in both demo entity bodies every `take` of the shared cell is
matched by a `set` before the next yield: each resume step maps a cell
holding the `Passivated` slot to a cell still holding it, so the store the
entity checks back in at every suspension point is the full store and never
the empty placeholder left by a `take` (a store holding the slot is
distinct from the placeholder). -/
theorem shared_cell_checked_in (bSlot : StateKey DemoTy.optKey)
    (pSlot : StateKey DemoTy.pass) (hne : bSlot.idx ≠ pSlot.idx) :
    (∀ pc cell a pc2 cell2, stepA bSlot pSlot pc cell = some (a, pc2, cell2) →
       (State.get pSlot cell).isSome = true →
       (State.get pSlot cell2).isSome = true) ∧
    (∀ aKey pc cell a pc2 cell2,
       stepB aKey pSlot pc cell = some (a, pc2, cell2) →
       (State.get pSlot cell).isSome = true →
       (State.get pSlot cell2).isSome = true) ∧
    (∀ st : DemoState, (State.get pSlot st).isSome = true →
       st ≠ State.empty DemoTy.interp) := by
  have hne2 : pSlot.idx ≠ bSlot.idx := fun hq => hne hq.symm
  refine ⟨?_, ?_, ?_⟩
  · intro pc cell a pc2 cell2 h hsome
    cases pc with
    | start =>
      simp only [stepA] at h
      cases hg : (State.remove bSlot cell).1 with
      | none =>
        simp only [hg] at h
        cases h
      | some ob =>
        cases ob with
        | none =>
          simp only [hg] at h
          cases h
        | some bK =>
          simp only [hg, Option.some.injEq, Prod.mk.injEq] at h
          obtain ⟨rfl, rfl, rfl⟩ := h
          rw [State.get_remove_ne pSlot bSlot cell hne2]
          exact hsome
    | afterHold bK =>
      simp only [stepA] at h
      cases hg : State.get pSlot cell with
      | none =>
        simp only [hg] at h
        cases h
      | some ps =>
        simp only [hg] at h
        by_cases hbf : ps.entity_b
        · rw [if_pos hbf] at h
          simp only [Option.some.injEq, Prod.mk.injEq] at h
          obtain ⟨rfl, rfl, rfl⟩ := h
          exact hsome
        · rw [if_neg hbf] at h
          cases hu : updPass pSlot (fun p => { p with entity_a := true }) cell with
          | none =>
            simp only [hu] at h
            cases h
          | some cell3 =>
            simp only [hu, Option.some.injEq, Prod.mk.injEq] at h
            obtain ⟨rfl, rfl, rfl⟩ := h
            obtain ⟨p, _, hget2⟩ := updPass_spec hu
            rw [hget2]
            rfl
    | afterAct bK =>
      simp only [stepA] at h
      cases hu : updPass pSlot (fun p => { p with entity_a := true }) cell with
      | none =>
        simp only [hu] at h
        cases h
      | some cell3 =>
        simp only [hu, Option.some.injEq, Prod.mk.injEq] at h
        obtain ⟨rfl, rfl, rfl⟩ := h
        obtain ⟨p, _, hget2⟩ := updPass_spec hu
        rw [hget2]
        rfl
    | afterPass bK =>
      simp only [stepA] at h
      cases hu : updPass pSlot (fun p => { p with entity_a := false }) cell with
      | none =>
        simp only [hu] at h
        cases h
      | some cell3 =>
        simp only [hu, Option.some.injEq, Prod.mk.injEq] at h
        obtain ⟨rfl, rfl, rfl⟩ := h
        obtain ⟨p, _, hget2⟩ := updPass_spec hu
        rw [hget2]
        rfl
  · intro aKey pc cell a pc2 cell2 h hsome
    cases pc with
    | start =>
      simp only [stepB] at h
      cases hu : updPass pSlot (fun p => { p with entity_b := true }) cell with
      | none =>
        simp only [hu] at h
        cases h
      | some cell3 =>
        simp only [hu, Option.some.injEq, Prod.mk.injEq] at h
        obtain ⟨rfl, rfl, rfl⟩ := h
        obtain ⟨p, _, hget2⟩ := updPass_spec hu
        rw [hget2]
        rfl
    | afterPass0 =>
      simp only [stepB] at h
      cases hu : updPass pSlot (fun p => { p with entity_b := false }) cell with
      | none =>
        simp only [hu] at h
        cases h
      | some cell3 =>
        simp only [hu, Option.some.injEq, Prod.mk.injEq] at h
        obtain ⟨rfl, rfl, rfl⟩ := h
        obtain ⟨p, _, hget2⟩ := updPass_spec hu
        rw [hget2]
        rfl
    | afterHold =>
      simp only [stepB] at h
      cases hg : State.get pSlot cell with
      | none =>
        simp only [hg] at h
        cases h
      | some ps =>
        simp only [hg] at h
        by_cases haf : ps.entity_a
        · rw [if_pos haf] at h
          simp only [Option.some.injEq, Prod.mk.injEq] at h
          obtain ⟨rfl, rfl, rfl⟩ := h
          exact hsome
        · rw [if_neg haf] at h
          cases hu : updPass pSlot (fun p => { p with entity_b := true }) cell with
          | none =>
            simp only [hu] at h
            cases h
          | some cell3 =>
            simp only [hu, Option.some.injEq, Prod.mk.injEq] at h
            obtain ⟨rfl, rfl, rfl⟩ := h
            obtain ⟨p, _, hget2⟩ := updPass_spec hu
            rw [hget2]
            rfl
    | afterAct =>
      simp only [stepB] at h
      cases hu : updPass pSlot (fun p => { p with entity_b := true }) cell with
      | none =>
        simp only [hu] at h
        cases h
      | some cell3 =>
        simp only [hu, Option.some.injEq, Prod.mk.injEq] at h
        obtain ⟨rfl, rfl, rfl⟩ := h
        obtain ⟨p, _, hget2⟩ := updPass_spec hu
        rw [hget2]
        rfl
    | afterPass =>
      simp only [stepB] at h
      cases hu : updPass pSlot (fun p => { p with entity_b := false }) cell with
      | none =>
        simp only [hu] at h
        cases h
      | some cell3 =>
        simp only [hu, Option.some.injEq, Prod.mk.injEq] at h
        obtain ⟨rfl, rfl, rfl⟩ := h
        obtain ⟨p, _, hget2⟩ := updPass_spec hu
        rw [hget2]
        rfl
  · intro st hsome hEq
    rw [hEq, State.get_empty] at hsome
    cases hsome

/-- C10: the demo's `Passivated` record tracks passivation exactly: each
entity sets only its own flag, raising it in the step that yields
`Passivate` and lowering it in the step resumed from that yield before the
next suspension, so across every resume step a correct own-flag at entry
(`true` exactly at a `Passivate` yield) leads to an own-flag at the new
suspension point equal to whether that suspension is a `Passivate`, while
the other entity's flag passes through unchanged. -/
theorem passivated_flags_track_passivation (bSlot : StateKey DemoTy.optKey)
    (pSlot : StateKey DemoTy.pass) (hne : bSlot.idx ≠ pSlot.idx) :
    (∀ pc cell a pc2 cell2, stepA bSlot pSlot pc cell = some (a, pc2, cell2) →
       (State.get pSlot cell).map Passivated.entity_a = some (aInFlag pc) →
       (State.get pSlot cell2).map Passivated.entity_a = some (isPass a) ∧
       aInFlag pc2 = isPass a) ∧
    (∀ aKey pc cell a pc2 cell2,
       stepB aKey pSlot pc cell = some (a, pc2, cell2) →
       (State.get pSlot cell).map Passivated.entity_b = some (bInFlag pc) →
       (State.get pSlot cell2).map Passivated.entity_b = some (isPass a) ∧
       bInFlag pc2 = isPass a) ∧
    (∀ pc cell a pc2 cell2 x,
       stepA bSlot pSlot pc cell = some (a, pc2, cell2) →
       (State.get pSlot cell).map Passivated.entity_b = some x →
       (State.get pSlot cell2).map Passivated.entity_b = some x) ∧
    (∀ aKey pc cell a pc2 cell2 x,
       stepB aKey pSlot pc cell = some (a, pc2, cell2) →
       (State.get pSlot cell).map Passivated.entity_a = some x →
       (State.get pSlot cell2).map Passivated.entity_a = some x) := by
  have hne2 : pSlot.idx ≠ bSlot.idx := fun hq => hne hq.symm
  refine ⟨?_, ?_, ?_, ?_⟩
  · intro pc cell a pc2 cell2 h hflag
    cases pc with
    | start =>
      simp only [stepA] at h
      cases hg : (State.remove bSlot cell).1 with
      | none =>
        simp only [hg] at h
        cases h
      | some ob =>
        cases ob with
        | none =>
          simp only [hg] at h
          cases h
        | some bK =>
          simp only [hg, Option.some.injEq, Prod.mk.injEq] at h
          obtain ⟨rfl, rfl, rfl⟩ := h
          refine ⟨?_, rfl⟩
          rw [State.get_remove_ne pSlot bSlot cell hne2]
          exact hflag
    | afterHold bK =>
      simp only [stepA] at h
      cases hg : State.get pSlot cell with
      | none =>
        simp only [hg] at h
        cases h
      | some ps =>
        simp only [hg] at h
        by_cases hbf : ps.entity_b
        · rw [if_pos hbf] at h
          simp only [Option.some.injEq, Prod.mk.injEq] at h
          obtain ⟨rfl, rfl, rfl⟩ := h
          exact ⟨hflag, rfl⟩
        · rw [if_neg hbf] at h
          cases hu : updPass pSlot (fun p => { p with entity_a := true }) cell with
          | none =>
            simp only [hu] at h
            cases h
          | some cell3 =>
            simp only [hu, Option.some.injEq, Prod.mk.injEq] at h
            obtain ⟨rfl, rfl, rfl⟩ := h
            obtain ⟨p, hgp, hget2⟩ := updPass_spec hu
            refine ⟨?_, rfl⟩
            rw [hget2]
            rfl
    | afterAct bK =>
      simp only [stepA] at h
      cases hu : updPass pSlot (fun p => { p with entity_a := true }) cell with
      | none =>
        simp only [hu] at h
        cases h
      | some cell3 =>
        simp only [hu, Option.some.injEq, Prod.mk.injEq] at h
        obtain ⟨rfl, rfl, rfl⟩ := h
        obtain ⟨p, hgp, hget2⟩ := updPass_spec hu
        refine ⟨?_, rfl⟩
        rw [hget2]
        rfl
    | afterPass bK =>
      simp only [stepA] at h
      cases hu : updPass pSlot (fun p => { p with entity_a := false }) cell with
      | none =>
        simp only [hu] at h
        cases h
      | some cell3 =>
        simp only [hu, Option.some.injEq, Prod.mk.injEq] at h
        obtain ⟨rfl, rfl, rfl⟩ := h
        obtain ⟨p, hgp, hget2⟩ := updPass_spec hu
        refine ⟨?_, rfl⟩
        rw [hget2]
        rfl
  · intro aKey pc cell a pc2 cell2 h hflag
    cases pc with
    | start =>
      simp only [stepB] at h
      cases hu : updPass pSlot (fun p => { p with entity_b := true }) cell with
      | none =>
        simp only [hu] at h
        cases h
      | some cell3 =>
        simp only [hu, Option.some.injEq, Prod.mk.injEq] at h
        obtain ⟨rfl, rfl, rfl⟩ := h
        obtain ⟨p, hgp, hget2⟩ := updPass_spec hu
        refine ⟨?_, rfl⟩
        rw [hget2]
        rfl
    | afterPass0 =>
      simp only [stepB] at h
      cases hu : updPass pSlot (fun p => { p with entity_b := false }) cell with
      | none =>
        simp only [hu] at h
        cases h
      | some cell3 =>
        simp only [hu, Option.some.injEq, Prod.mk.injEq] at h
        obtain ⟨rfl, rfl, rfl⟩ := h
        obtain ⟨p, hgp, hget2⟩ := updPass_spec hu
        refine ⟨?_, rfl⟩
        rw [hget2]
        rfl
    | afterHold =>
      simp only [stepB] at h
      cases hg : State.get pSlot cell with
      | none =>
        simp only [hg] at h
        cases h
      | some ps =>
        simp only [hg] at h
        by_cases haf : ps.entity_a
        · rw [if_pos haf] at h
          simp only [Option.some.injEq, Prod.mk.injEq] at h
          obtain ⟨rfl, rfl, rfl⟩ := h
          exact ⟨hflag, rfl⟩
        · rw [if_neg haf] at h
          cases hu : updPass pSlot (fun p => { p with entity_b := true }) cell with
          | none =>
            simp only [hu] at h
            cases h
          | some cell3 =>
            simp only [hu, Option.some.injEq, Prod.mk.injEq] at h
            obtain ⟨rfl, rfl, rfl⟩ := h
            obtain ⟨p, hgp, hget2⟩ := updPass_spec hu
            refine ⟨?_, rfl⟩
            rw [hget2]
            rfl
    | afterAct =>
      simp only [stepB] at h
      cases hu : updPass pSlot (fun p => { p with entity_b := true }) cell with
      | none =>
        simp only [hu] at h
        cases h
      | some cell3 =>
        simp only [hu, Option.some.injEq, Prod.mk.injEq] at h
        obtain ⟨rfl, rfl, rfl⟩ := h
        obtain ⟨p, hgp, hget2⟩ := updPass_spec hu
        refine ⟨?_, rfl⟩
        rw [hget2]
        rfl
    | afterPass =>
      simp only [stepB] at h
      cases hu : updPass pSlot (fun p => { p with entity_b := false }) cell with
      | none =>
        simp only [hu] at h
        cases h
      | some cell3 =>
        simp only [hu, Option.some.injEq, Prod.mk.injEq] at h
        obtain ⟨rfl, rfl, rfl⟩ := h
        obtain ⟨p, hgp, hget2⟩ := updPass_spec hu
        refine ⟨?_, rfl⟩
        rw [hget2]
        rfl
  · intro pc cell a pc2 cell2 x h hflag
    cases pc with
    | start =>
      simp only [stepA] at h
      cases hg : (State.remove bSlot cell).1 with
      | none =>
        simp only [hg] at h
        cases h
      | some ob =>
        cases ob with
        | none =>
          simp only [hg] at h
          cases h
        | some bK =>
          simp only [hg, Option.some.injEq, Prod.mk.injEq] at h
          obtain ⟨rfl, rfl, rfl⟩ := h
          rw [State.get_remove_ne pSlot bSlot cell hne2]
          exact hflag
    | afterHold bK =>
      simp only [stepA] at h
      cases hg : State.get pSlot cell with
      | none =>
        simp only [hg] at h
        cases h
      | some ps =>
        simp only [hg] at h
        by_cases hbf : ps.entity_b
        · rw [if_pos hbf] at h
          simp only [Option.some.injEq, Prod.mk.injEq] at h
          obtain ⟨rfl, rfl, rfl⟩ := h
          exact hflag
        · rw [if_neg hbf] at h
          cases hu : updPass pSlot (fun p => { p with entity_a := true }) cell with
          | none =>
            simp only [hu] at h
            cases h
          | some cell3 =>
            simp only [hu, Option.some.injEq, Prod.mk.injEq] at h
            obtain ⟨rfl, rfl, rfl⟩ := h
            obtain ⟨p, hg2, hget2⟩ := updPass_spec hu
            rw [hg2] at hflag
            simp only [Option.map_some', Option.some.injEq] at hflag
            rw [hget2]
            simp only [Option.map_some']
            exact congrArg some hflag
    | afterAct bK =>
      simp only [stepA] at h
      cases hu : updPass pSlot (fun p => { p with entity_a := true }) cell with
      | none =>
        simp only [hu] at h
        cases h
      | some cell3 =>
        simp only [hu, Option.some.injEq, Prod.mk.injEq] at h
        obtain ⟨rfl, rfl, rfl⟩ := h
        obtain ⟨p, hg, hget2⟩ := updPass_spec hu
        rw [hg] at hflag
        simp only [Option.map_some', Option.some.injEq] at hflag
        rw [hget2]
        simp only [Option.map_some']
        exact congrArg some hflag
    | afterPass bK =>
      simp only [stepA] at h
      cases hu : updPass pSlot (fun p => { p with entity_a := false }) cell with
      | none =>
        simp only [hu] at h
        cases h
      | some cell3 =>
        simp only [hu, Option.some.injEq, Prod.mk.injEq] at h
        obtain ⟨rfl, rfl, rfl⟩ := h
        obtain ⟨p, hg, hget2⟩ := updPass_spec hu
        rw [hg] at hflag
        simp only [Option.map_some', Option.some.injEq] at hflag
        rw [hget2]
        simp only [Option.map_some']
        exact congrArg some hflag
  · intro aKey pc cell a pc2 cell2 x h hflag
    cases pc with
    | start =>
      simp only [stepB] at h
      cases hu : updPass pSlot (fun p => { p with entity_b := true }) cell with
      | none =>
        simp only [hu] at h
        cases h
      | some cell3 =>
        simp only [hu, Option.some.injEq, Prod.mk.injEq] at h
        obtain ⟨rfl, rfl, rfl⟩ := h
        obtain ⟨p, hg, hget2⟩ := updPass_spec hu
        rw [hg] at hflag
        simp only [Option.map_some', Option.some.injEq] at hflag
        rw [hget2]
        simp only [Option.map_some']
        exact congrArg some hflag
    | afterPass0 =>
      simp only [stepB] at h
      cases hu : updPass pSlot (fun p => { p with entity_b := false }) cell with
      | none =>
        simp only [hu] at h
        cases h
      | some cell3 =>
        simp only [hu, Option.some.injEq, Prod.mk.injEq] at h
        obtain ⟨rfl, rfl, rfl⟩ := h
        obtain ⟨p, hg, hget2⟩ := updPass_spec hu
        rw [hg] at hflag
        simp only [Option.map_some', Option.some.injEq] at hflag
        rw [hget2]
        simp only [Option.map_some']
        exact congrArg some hflag
    | afterHold =>
      simp only [stepB] at h
      cases hg : State.get pSlot cell with
      | none =>
        simp only [hg] at h
        cases h
      | some ps =>
        simp only [hg] at h
        by_cases haf : ps.entity_a
        · rw [if_pos haf] at h
          simp only [Option.some.injEq, Prod.mk.injEq] at h
          obtain ⟨rfl, rfl, rfl⟩ := h
          exact hflag
        · rw [if_neg haf] at h
          cases hu : updPass pSlot (fun p => { p with entity_b := true }) cell with
          | none =>
            simp only [hu] at h
            cases h
          | some cell3 =>
            simp only [hu, Option.some.injEq, Prod.mk.injEq] at h
            obtain ⟨rfl, rfl, rfl⟩ := h
            obtain ⟨p, hg2, hget2⟩ := updPass_spec hu
            rw [hg2] at hflag
            simp only [Option.map_some', Option.some.injEq] at hflag
            rw [hget2]
            simp only [Option.map_some']
            exact congrArg some hflag
    | afterAct =>
      simp only [stepB] at h
      cases hu : updPass pSlot (fun p => { p with entity_b := true }) cell with
      | none =>
        simp only [hu] at h
        cases h
      | some cell3 =>
        simp only [hu, Option.some.injEq, Prod.mk.injEq] at h
        obtain ⟨rfl, rfl, rfl⟩ := h
        obtain ⟨p, hg, hget2⟩ := updPass_spec hu
        rw [hg] at hflag
        simp only [Option.map_some', Option.some.injEq] at hflag
        rw [hget2]
        simp only [Option.map_some']
        exact congrArg some hflag
    | afterPass =>
      simp only [stepB] at h
      cases hu : updPass pSlot (fun p => { p with entity_b := false }) cell with
      | none =>
        simp only [hu] at h
        cases h
      | some cell3 =>
        simp only [hu, Option.some.injEq, Prod.mk.injEq] at h
        obtain ⟨rfl, rfl, rfl⟩ := h
        obtain ⟨p, hg, hget2⟩ := updPass_spec hu
        rw [hg] at hflag
        simp only [Option.map_some', Option.some.injEq] at hflag
        rw [hget2]
        simp only [Option.map_some']
        exact congrArg some hflag

/-- Witness for C1 at the demo: after entity B's opening `Passivate` pops
its single pending entry, no entry for handle 1 remains in the FEL. -/
theorem passivate_activate_round_trip_witness : countKey 1 demoS1.fel = 0 :=
  (@passivate_activate_round_trip DemoState DemoL 60 0 1 demoSim demoS1
    demoS1Run.2 demoS1Run.1 (by decide) (by decide) rfl
    (@runAux_sound DemoState DemoL 60 29 demoS1 demoS1Run.2 demoS1Run.1 rfl)).1

/-- Witness for C2 at the demo: entity A's `ActivateOne` step leaves the
clock at the activating instant 5. -/
theorem activate_one_semantics_witness : (stepState 60 demoS2).clock = 5 := by
  obtain ⟨e, rest, hpop, hek, het, hclock, hfel, hseq, hcnt⟩ :=
    @activate_one_semantics DemoState DemoL 60 5 0 1 demoS2
      (stepState 60 demoS2) (by decide) rfl
  exact hclock

/-- Witness for C3 at the demo: `schedule_at` appends an entry carrying the
next sequence number (2) behind both seeded entries. -/
theorem fel_tie_break_order_witness :
    (Simulation.schedule_at 7 9 demoSim).fel =
      demoSim.fel ++ [{ timestamp := 9, seq := 2, key := 7 }] :=
  (@fel_tie_break_order DemoState DemoL 60 demoSim demoRun.2 demoRun.1
    { timestamp := 0, seq := 0, key := 1 } { timestamp := 0, seq := 1, key := 0 }
    (by decide) (by decide) (by decide) (by decide) (by decide) (by decide)
    (@runAux_sound DemoState DemoL 60 30 demoSim demoRun.2 demoRun.1 rfl)
    (by decide)).1 7 9

/-- Witness for C4 at the demo: the five popped timestamps 0,0,5,5,10 are
non-decreasing. -/
theorem clock_monotonicity_witness :
    List.Chain' (fun x y => x.1 ≤ y.1) demoRun.1 :=
  (@clock_monotonicity DemoState DemoL 60 demoSim demoRun.2 demoRun.1
    (by decide)
    (@runAux_sound DemoState DemoL 60 30 demoSim demoRun.2 demoRun.1 rfl)).1

/-- Witness for C5: an event at time 61 survives a `run_with_limit` with
budget 60 (the run is resumable). -/
theorem run_with_limit_budget_halt_witness :
    ({ timestamp := 61, seq := 0, key := 0 } : FelEntry) ∈
      overBudgetRun.2.fel :=
  (@run_with_limit_budget_halt Nat Unit 5 60 overBudgetSim overBudgetRun.2
    overBudgetRun.1 rfl).2.2.1
    { timestamp := 61, seq := 0, key := 0 } (by decide) (by decide)

/-- Witness for C6 at the demo store: inserting a `Passivated` record and
reading it back through the returned key yields the record. -/
theorem state_store_semantics_witness :
    State.get
      (State.insert DemoTy.pass { entity_a := true, entity_b := false }
        demoStore).1
      (State.insert DemoTy.pass { entity_a := true, entity_b := false }
        demoStore).2 =
      some { entity_a := true, entity_b := false } :=
  (@state_store_semantics DemoTy _ DemoTy.interp demoStore (by decide)
    DemoTy.pass { entity_a := true, entity_b := false }).1

/-- Witness for C7: resuming handle 0 on a kernel with no registered
entities returns the distinguishable `unknownHandle` error. -/
theorem resume_misuse_fails_loudly_witness :
    Simulation.resume 0 emptySim =
      Except.error (SimError.unknownHandle 0) :=
  (resume_misuse_fails_loudly emptySim 0).1 rfl

/-- Witness for C8: two demo runs under different fuel bounds produce the
same trace and final state. -/
theorem run_determinism_witness :
    demoRun.1 = demoRunB.1 ∧ demoRun.2 = demoRunB.2 :=
  @run_determinism DemoState DemoL 60 demoSim demoRun.2 demoRunB.2 demoRun.1
    demoRunB.1
    (@runAux_sound DemoState DemoL 60 30 demoSim demoRun.2 demoRun.1 rfl)
    (@runAux_sound DemoState DemoL 60 42 demoSim demoRunB.2 demoRunB.1 rfl)

/-- Witness for C9 at the demo store: entity A's entry step checks the
store back in with the `Passivated` slot still present. -/
theorem shared_cell_checked_in_witness :
    (State.get pSlotD demoStepARes.2.2).isSome = true :=
  (shared_cell_checked_in bSlotD pSlotD (by decide)).1 APc.start demoStore
    demoStepARes.1 demoStepARes.2.1 demoStepARes.2.2 rfl (by decide)

/-- Witness for C10 at the demo store: entity B's entry step yields
`Passivate` with its own flag raised, matching its new resumption point. -/
theorem passivated_flags_track_passivation_witness :
    (State.get pSlotD demoStepBRes.2.2).map Passivated.entity_b =
      some (isPass demoStepBRes.1) ∧
    bInFlag demoStepBRes.2.1 = isPass demoStepBRes.1 :=
  (passivated_flags_track_passivation bSlotD pSlotD (by decide)).2.1 0
    BPc.start demoStore demoStepBRes.1 demoStepBRes.2.1 demoStepBRes.2.2 rfl
    (by decide)

end Simulator
